import Mathlib

/-!
Verification development for the `ip2country` Go library.

The repository resolves an IPv4 address to a country code from a bulk-loaded
dataset, either as disjoint numeric ranges (`IPCountryDB`, db.go) or as exact
point mappings (`ExactIPCountryMap`).  Both engines share a thread-safe LRU
cache (`lruCache`) and a lazy double-checked initialization protocol.

Shallow embedding conventions used throughout this file:
  - Go strings are modelled as `List Char`; `strings.TrimSpace` / `strings.Split`
    are modelled by `trimChars` / `splitOnChars` below.
  - `uint32` values are modelled as `Nat` (the parser guarantees values below
    2 ^ 32 and no arithmetic in the library can overflow).
  - File I/O and `context.Context` are modelled by an explicit environment
    (`LoadEnv`): whether `os.Open` / `Stat` fail, the reported file size, the
    scanned lines, the first scan iteration at which the context is cancelled,
    and whether the scanner reports an error at the end.
  - `sync.RWMutex` is modelled only where a claim is about blocking: a
    non-reentrant `Lock` acquired while the same goroutine already holds it
    blocks forever, rendered as a `.blocked` outcome.
-/

/-! ## Go string primitives (strings.TrimSpace, strings.Split) -/

/-- Character-level whitespace test; Go's `unicode.IsSpace` on the ASCII range. -/
def isWS (c : Char) : Bool := c.isWhitespace

/-- Model of `strings.TrimSpace` over a Go string as a list of characters. -/
def trimChars (l : List Char) : List Char :=
  ((l.dropWhile isWS).reverse.dropWhile isWS).reverse

/-- Does `sep` occur as a prefix at the head of `l`?  Helper of `splitOnChars`. -/
def sepAt : List Char → List Char → Bool
  | [], _ => true
  | _ :: _, [] => false
  | s :: ss, c :: cs => s == c && sepAt ss cs

/-- Worker for `splitOnChars`; `fuel` bounds the scan (input length suffices). -/
def splitOnGo (sep : List Char) : Nat → List Char → List Char → List (List Char)
  | _, [], acc => [acc.reverse]
  | 0, rest, acc => [acc.reverse ++ rest]
  | fuel + 1, c :: cs, acc =>
    if sepAt sep (c :: cs) then
      acc.reverse :: splitOnGo sep fuel (List.drop (sep.length - 1) cs) []
    else
      splitOnGo sep fuel cs (c :: acc)

/-- Model of Go `strings.Split(l, sep)` for a non-empty separator; the engines
force a non-empty delimiter at construction, so the empty-separator case
(Go would split into single characters) is collapsed to the identity. -/
def splitOnChars (l sep : List Char) : List (List Char) :=
  if sep.isEmpty then [l] else splitOnGo sep l.length l []

/-! ## parseIP (README.md: net.ParseIP + To4 + strconv.ParseUint fallback)

`parseIP` accepts dotted-decimal IPv4 (four octets, each 0..255, no redundant
leading zeros, as `net.ParseIP` enforces) and, failing that, a plain decimal
`uint32` (`strconv.ParseUint(s, 10, 32)`).  IPv6 textual forms (including
IPv4-mapped ones) are outside the model's scope; none of the claims use them. -/

def allDigits : List Char → Bool
  | [] => true
  | c :: cs => c.isDigit && allDigits cs

def digitsToNat (l : List Char) : Nat :=
  l.foldl (fun acc c => acc * 10 + (c.toNat - '0'.toNat)) 0

/-- One dotted-decimal octet per `net.ParseIP`: 1..3 digits, value ≤ 255,
no redundant leading zero. -/
def parseOctet (l : List Char) : Option Nat :=
  if l ≠ [] ∧ allDigits l ∧ (l.length = 1 ∨ l.head? ≠ some '0') ∧ digitsToNat l ≤ 255
  then some (digitsToNat l) else none

/-- `strconv.ParseUint(s, 10, 32)`: decimal digits only, value < 2 ^ 32. -/
def parseUint32 (l : List Char) : Option Nat :=
  if l ≠ [] ∧ allDigits l ∧ digitsToNat l < 2 ^ 32 then some (digitsToNat l) else none

/-- Model of the repository's `parseIP` (README.md): big-endian combination of a
dotted quad, else the decimal `uint32` fallback; `none` models the error. -/
def parseIPChars (l : List Char) : Option Nat :=
  match splitOnChars l ['.'] with
  | [a, b, c, d] =>
    match parseOctet a, parseOctet b, parseOctet c, parseOctet d with
    | some x, some y, some z, some w => some (x * 2 ^ 24 + y * 2 ^ 16 + z * 2 ^ 8 + w)
    | _, _, _, _ => none
  | [_] => parseUint32 l
  | _ => none

/-! ## IPRange (README.md) -/

/-- `IPRange` from README.md: `Country`, `Code`, `StartIP`, `EndIP`. -/
structure IPRange where
  country : List Char
  code : List Char
  startIP : Nat
  endIP : Nat
deriving DecidableEq, Inhabited

/-- `IPRange.Contains` (README.md): `ip >= r.StartIP && ip <= r.EndIP`. -/
def IPRange.containsIP (r : IPRange) (ip : Nat) : Bool :=
  decide (r.startIP ≤ ip) && decide (ip ≤ r.endIP)

/-- Per-record parse/validation errors (`parseLine`, `IPRange.Validate`). -/
inductive LineErr where
  | fieldCount (n : Nat)
  | badStartIP
  | badEndIP
  | badIP
  | startAfterEnd (s e : Nat)
  | emptyCode
deriving DecidableEq

/-- `IPRange.Validate` (README.md): start must not exceed end, code non-empty. -/
def IPRange.validateR (r : IPRange) : Option LineErr :=
  if r.startIP > r.endIP then some (.startAfterEnd r.startIP r.endIP)
  else if r.code = [] then some .emptyCode
  else none

/-! ## lruCache (src/unnamed/part_001)

The Go cache pairs a key → `*list.Element` map (`items`) with a recency list
(`evictList`, front = most recent).  The map is modelled as the list of its
keys (`items : List Nat`); the list node a key maps to is, under the cache
invariant, the unique `evictList` entry with that key, so reads through the
map are modelled as `find?` on `evictList` (with an unreachable default). -/

/-- `cacheEntry` from part_001: `country`, `code`, `ip`, `found`. -/
structure CacheEntry where
  country : List Char
  code : List Char
  ip : Nat
  found : Bool
deriving DecidableEq, Inhabited

/-- `lruCache`: capacity, key map (as its key list), recency list, counters. -/
structure LruCache where
  capacity : Nat
  items : List Nat
  evictList : List (Nat × CacheEntry)
  hits : Nat
  misses : Nat
deriving DecidableEq

/-- `newLRUCache`. -/
def newLRUCache (capacity : Nat) : LruCache :=
  ⟨capacity, [], [], 0, 0⟩

/-- `list.List.MoveToFront` of the (unique) node holding key `k`. -/
def moveToFront (k : Nat) (l : List (Nat × CacheEntry)) : List (Nat × CacheEntry) :=
  match l.find? (fun p => p.1 == k) with
  | some p => p :: l.eraseP (fun p => p.1 == k)
  | none => l

/-- `lruCache.get`: on a map hit, promote the node and count a hit; otherwise
count a miss. -/
def lruGet (c : LruCache) (k : Nat) : LruCache × Option CacheEntry :=
  if c.items.contains k then
    (⟨c.capacity, c.items, moveToFront k c.evictList, c.hits + 1, c.misses⟩,
      some (((c.evictList.find? (fun p => p.1 == k)).map Prod.snd).getD default))
  else
    (⟨c.capacity, c.items, c.evictList, c.hits, c.misses + 1⟩, none)

/-- `lruCache.removeOldest`: drop the back of the recency list and delete its
key from the map. -/
def removeOldest (c : LruCache) : LruCache :=
  match c.evictList.getLast? with
  | none => c
  | some p =>
    ⟨c.capacity, c.items.erase p.1, c.evictList.dropLast, c.hits, c.misses⟩

/-- `lruCache.put`: update-and-promote an existing key, else evict at capacity
and push the new node to the front. -/
def lruPut (c : LruCache) (k : Nat) (v : CacheEntry) : LruCache :=
  if c.items.contains k then
    ⟨c.capacity, c.items, (k, v) :: c.evictList.eraseP (fun p => p.1 == k),
      c.hits, c.misses⟩
  else
    let c1 := if c.evictList.length ≥ c.capacity then removeOldest c else c
    ⟨c1.capacity, k :: c1.items, (k, v) :: c1.evictList, c1.hits, c1.misses⟩

/-- `lruCache.clear`: empty both structures and reset the counters. -/
def lruClear (c : LruCache) : LruCache :=
  ⟨c.capacity, [], [], 0, 0⟩

/-- `lruCache.getStats`. -/
def lruStats (c : LruCache) : Nat × Nat := (c.hits, c.misses)

/-! ## Config (README.md) and load environment -/

/-- `Config` from README.md; integer fields keep Go's signed types. -/
structure Config where
  delimiter : List Char
  maxFileSize : Int
  maxRanges : Int
  cacheSize : Int
  skipHeader : Bool
deriving DecidableEq

/-- `DefaultConfig()`. -/
def defaultConfig : Config :=
  ⟨[','], 100 * 2 ^ 20, 1000000, 1000, false⟩

/-- The constructor-side normalization shared by `NewIPCountryDB` and
`NewExactIPCountryMap`: empty delimiter becomes ",", non-positive cache size
becomes 1000. -/
def normalizeConfig (cfg : Config) : Config :=
  let cfg := if cfg.delimiter = [] then { cfg with delimiter := [','] } else cfg
  if cfg.cacheSize ≤ 0 then { cfg with cacheSize := 1000 } else cfg

/-- Load-pipeline (sticky) errors: `LoadError` taxonomy of the spec. -/
inductive LoadErr where
  | fileOpenFailed
  | fileStatFailed
  | sizeExceeded (size limit : Int)
  | scannerFailed
  | cancelled
  | overlapFound (s1 e1 s2 e2 : Nat)
deriving DecidableEq

/-- `ParseError` (README.md): line number, content, cause. -/
structure ParseErr where
  line : Nat
  content : List Char
  err : LineErr
deriving DecidableEq

/-- The externally observable behaviour of the file system and the context
during one load attempt.  `cancelAt = some j` means the context is observed as
done from the `j`-th scan iteration (1-based) onward; `scanFails` means the
scanner reports an error once the loop has consumed all lines. -/
structure LoadEnv where
  openFails : Bool
  statFails : Bool
  fileSize : Int
  lines : List (List Char)
  cancelAt : Option Nat
  scanFails : Bool

/-- Is the context observed as done at scan iteration `iter` (1-based)? -/
def ctxDoneAt (cancelAt : Option Nat) (iter : Nat) : Bool :=
  match cancelAt with
  | some j => decide (j ≤ iter)
  | none => false

/-! ## Range engine parsing (db.go: parseLine, parseReaderWithContext,
parseFileWithContext) -/

/-- The tail of `parseLine` (db.go): build the `IPRange` with
`Country = Code` (per the code comment) and run `Validate`. -/
def buildRange (s e : Nat) (cc : List Char) : Except LineErr IPRange :=
  match (⟨cc, cc, s, e⟩ : IPRange).validateR with
  | some err => .error err
  | none => .ok ⟨cc, cc, s, e⟩

/-- `parseLine` (db.go): split on the delimiter, expect 3 fields, parse both
IPs, trim the code, build and validate the range. -/
def parseLineRange (cfg : Config) (line : List Char) : Except LineErr IPRange :=
  match splitOnChars line cfg.delimiter with
  | [p0, p1, p2] =>
    match parseIPChars (trimChars p0) with
    | none => .error .badStartIP
    | some s =>
      match parseIPChars (trimChars p1) with
      | none => .error .badEndIP
      | some e => buildRange s e (trimChars p2)
  | parts => .error (.fieldCount parts.length)

/-- How one scan loop ended: context cancellation, the `MaxRanges` break, or
natural end of input. -/
inductive LoopEnd where
  | stopCancelled
  | stopBroke
  | stopEnd
deriving DecidableEq

/-- The scan loop of `parseReaderWithContext` (db.go): per-iteration context
check, line trimming, blank/header skipping, per-line error collection, and
the `MaxRanges` break. -/
def parseLoopRange (cfg : Config) (cancelAt : Option Nat) :
    List (List Char) → Nat → List IPRange → List ParseErr →
    List IPRange × List ParseErr × LoopEnd
  | [], _, acc, errs => (acc, errs, .stopEnd)
  | line :: rest, lineNum, acc, errs =>
    if ctxDoneAt cancelAt (lineNum + 1) then (acc, errs, .stopCancelled)
    else
      let n := lineNum + 1
      let l := trimChars line
      if l = [] ∨ (cfg.skipHeader ∧ n = 1) then
        parseLoopRange cfg cancelAt rest n acc errs
      else
        match parseLineRange cfg l with
        | .error e => parseLoopRange cfg cancelAt rest n acc (errs ++ [⟨n, l, e⟩])
        | .ok r =>
          let acc := acc ++ [r]
          if cfg.maxRanges > 0 ∧ (acc.length : Int) ≥ cfg.maxRanges then
            (acc, errs, .stopBroke)
          else
            parseLoopRange cfg cancelAt rest n acc errs

/-- `parseReaderWithContext` (db.go): run the loop; a scanner error surfaces
only when the loop consumed its whole input. -/
def parseReaderRange (cfg : Config) (env : LoadEnv) :
    Except LoadErr (List IPRange × List ParseErr) :=
  match parseLoopRange cfg env.cancelAt env.lines 0 [] [] with
  | (_, _, .stopCancelled) => .error .cancelled
  | (rs, es, .stopBroke) => .ok (rs, es)
  | (rs, es, .stopEnd) =>
    if env.scanFails then .error .scannerFailed else .ok (rs, es)

/-- `parseFileWithContext` (db.go): open, stat, size-limit check, then the
reader. -/
def parseFileRange (cfg : Config) (env : LoadEnv) :
    Except LoadErr (List IPRange × List ParseErr) :=
  if env.openFails then .error .fileOpenFailed
  else if env.statFails then .error .fileStatFailed
  else if cfg.maxFileSize > 0 ∧ env.fileSize > cfg.maxFileSize then
    .error (.sizeExceeded env.fileSize cfg.maxFileSize)
  else parseReaderRange cfg env

/-! ## Range engine state, initialization and lookup (db.go) -/

/-- The mutable fields of `IPCountryDB` that the claims are about: the
committed ranges, the atomic `initialized` flag, the sticky error slot and the
cache.  `Stats` bookkeeping (timings, sizes) is not modelled. -/
structure RangeState where
  ranges : List IPRange
  initDone : Bool
  initErr : Option LoadErr
  cache : LruCache
  config : Config
deriving DecidableEq

/-- A freshly constructed `IPCountryDB` (after `NewIPCountryDB`). -/
def newRangeState (cfg : Config) : RangeState :=
  let cfg := normalizeConfig cfg
  ⟨[], false, none, newLRUCache cfg.cacheSize.toNat, cfg⟩

/-- `validateRanges` (db.go): adjacent-overlap check over the sorted slice. -/
def validateRangesGo : List IPRange → Option LoadErr
  | a :: b :: rest =>
    if a.endIP ≥ b.startIP then
      some (.overlapFound a.startIP a.endIP b.startIP b.endIP)
    else validateRangesGo (b :: rest)
  | _ => none

/-- `sort.Slice(result.Ranges, ...)` by `StartIP` (db.go); modelled by a
stable insertion sort on the same key. -/
def sortByStart (l : List IPRange) : List IPRange :=
  List.insertionSort (fun a b => a.startIP ≤ b.startIP) l

/-- The sort-validate-commit tail of `initializeWithContext` (db.go), applied
to the already-sorted ranges: a validation failure records the error; success
commits the ranges and sets the flag. -/
def commitSorted (st : RangeState) (sorted : List IPRange) : RangeState × Option LoadErr :=
  match validateRangesGo sorted with
  | some e => ({ st with initErr := some e }, some e)
  | none => ({ st with ranges := sorted, initDone := true }, none)

/-- The part of `initializeWithContext` (db.go) after `parseFileWithContext`
returns: record a parse failure, or sort and commit. -/
def commitRanges (st : RangeState) (pr : Except LoadErr (List IPRange × List ParseErr)) :
    RangeState × Option LoadErr :=
  match pr with
  | .error e => ({ st with initErr := some e }, some e)
  | .ok (rs, _errs) => commitSorted st (sortByStart rs)

/-- The body of `initializeWithContext` (db.go) as a state transformer, the
double-checked locking abstracted to the sequential call (the lock-aware view
is `initRangeLocked` below).  Note the two faithful quirks: a failed attempt
records `initErr` but does NOT set the `initialized` flag, and a successful
attempt sets the flag but does NOT clear a previously recorded `initErr`. -/
def initRangeWC (env : LoadEnv) (st : RangeState) : RangeState × Option LoadErr :=
  if st.initDone then (st, st.initErr)
  else commitRanges st (parseFileRange st.config env)

/-- Lookup results of `findCountryForIP`, keeping the code's two distinct
not-found errors ("country not found for IP" vs "... (cached miss)") apart. -/
inductive LookupRes where
  | found (country code : List Char)
  | missFresh
  | missCached
deriving DecidableEq

/-- The positive/negative outcome of a lookup, with the two not-found error
variants collapsed; this is the "same code or same not-found outcome" view. -/
def toOutcome : LookupRes → Option (List Char × List Char)
  | .found c k => some (c, k)
  | .missFresh => none
  | .missCached => none

/-- The `sort.Search` binary-search loop of Go's standard library
(`i, j := 0, n; for i < j { h := (i+j)/2; ... }`), written with structural
fuel; fuel `n` always suffices since the interval shrinks every step. -/
def sortSearchGo (f : Nat → Bool) : Nat → Nat → Nat → Nat
  | 0, i, _ => i
  | fuel + 1, i, j =>
    if i < j then
      if f ((i + j) / 2) then sortSearchGo f fuel i ((i + j) / 2)
      else sortSearchGo f fuel ((i + j) / 2 + 1) j
    else i

/-- `sort.Search(n, f)`. -/
def sortSearch (n : Nat) (f : Nat → Bool) : Nat :=
  sortSearchGo f n 0 n

/-- The index computed by `findCountryForIP` (db.go): smallest `i` with
`ranges[i].StartIP > ip`. -/
def rangeSearchIdx (ranges : List IPRange) (ip : Nat) : Nat :=
  sortSearch ranges.length (fun i => decide (ip < (ranges.getD i default).startIP))

/-- The cache-free core of `findCountryForIP` (db.go): binary search for the
insertion point, step back one, check `Contains`. -/
def rangeLookupPure (ranges : List IPRange) (ip : Nat) : Option (List Char × List Char) :=
  if 0 < rangeSearchIdx ranges ip then
    if (ranges.getD (rangeSearchIdx ranges ip - 1) default).containsIP ip then
      some ((ranges.getD (rangeSearchIdx ranges ip - 1) default).country,
            (ranges.getD (rangeSearchIdx ranges ip - 1) default).code)
    else none
  else none

/-- The cache-hit half of `findCountryForIP` (db.go): a cached positive entry
returns its fields, a cached negative entry returns the cached-miss error. -/
def cacheHitResult (st : RangeState) (c1 : LruCache) (e : CacheEntry) :
    RangeState × LookupRes :=
  ({ st with cache := c1 }, if e.found then .found e.country e.code else .missCached)

/-- The cache-miss half of `findCountryForIP` (db.go): run the binary search
and record the positive or negative outcome in the cache. -/
def cacheMissSearch (st : RangeState) (c1 : LruCache) (ip : Nat) :
    RangeState × LookupRes :=
  match rangeLookupPure st.ranges ip with
  | some (cty, code) =>
    ({ st with cache := lruPut c1 ip ⟨cty, code, ip, true⟩ }, .found cty code)
  | none =>
    ({ st with cache := lruPut c1 ip ⟨[], [], ip, false⟩ }, .missFresh)

/-- `findCountryForIP` (db.go): consult the cache; on a miss run the binary
search and record the outcome (positive or negative) in the cache. -/
def findCountryForIP (st : RangeState) (ip : Nat) : RangeState × LookupRes :=
  match lruGet st.cache ip with
  | (c1, some e) => cacheHitResult st c1 e
  | (c1, none) => cacheMissSearch st c1 ip

/-- Per-call lookup errors of `GetCountry`/`GetCountryCode`. -/
inductive LookupErr where
  | initFailed (e : LoadErr)
  | invalidIP
  | notFound
  | notFoundCachedMiss
deriving DecidableEq

/-- Translate a `findCountryForIP` result into `GetCountry`'s return value
(the `Country` component). -/
def lookupToCountry (fr : RangeState × LookupRes) :
    RangeState × Except LookupErr (List Char) :=
  match fr with
  | (st2, .found c _) => (st2, .ok c)
  | (st2, .missFresh) => (st2, .error .notFound)
  | (st2, .missCached) => (st2, .error .notFoundCachedMiss)

/-- Translate a `findCountryForIP` result into `GetCountryCode`'s return value
(the `Code` component). -/
def lookupToCode (fr : RangeState × LookupRes) :
    RangeState × Except LookupErr (List Char) :=
  match fr with
  | (st2, .found _ k) => (st2, .ok k)
  | (st2, .missFresh) => (st2, .error .notFound)
  | (st2, .missCached) => (st2, .error .notFoundCachedMiss)

/-- The post-initialization part of `GetCountryWithContext` (db.go). -/
def getCountryAfterInit (st1 : RangeState) (ipStr : List Char) :
    RangeState × Except LookupErr (List Char) :=
  match parseIPChars ipStr with
  | none => (st1, .error .invalidIP)
  | some ip => lookupToCountry (findCountryForIP st1 ip)

/-- The post-initialization part of `GetCountryCodeWithContext` (db.go). -/
def getCountryCodeAfterInit (st1 : RangeState) (ipStr : List Char) :
    RangeState × Except LookupErr (List Char) :=
  match parseIPChars ipStr with
  | none => (st1, .error .invalidIP)
  | some ip => lookupToCode (findCountryForIP st1 ip)

/-- `GetCountryWithContext` (db.go): lazy init, IP parse, cached search;
returns the `Country` component. -/
def getCountryWC (env : LoadEnv) (st : RangeState) (ipStr : List Char) :
    RangeState × Except LookupErr (List Char) :=
  match initRangeWC env st with
  | (st1, some e) => (st1, .error (.initFailed e))
  | (st1, none) => getCountryAfterInit st1 ipStr

/-- `GetCountryCodeWithContext` (db.go): identical pipeline, `Code` component. -/
def getCountryCodeWC (env : LoadEnv) (st : RangeState) (ipStr : List Char) :
    RangeState × Except LookupErr (List Char) :=
  match initRangeWC env st with
  | (st1, some e) => (st1, .error (.initFailed e))
  | (st1, none) => getCountryCodeAfterInit st1 ipStr

/-! ## Lock-aware view of Reload (db.go: ReloadWithContext) -/

/-- Outcome of a call under the lock model: either the call returns with a
final state and result, or it blocks forever. -/
inductive CallOutcome where
  | blocked (st : RangeState)
  | returned (st : RangeState) (r : Option LoadErr)
deriving DecidableEq

/-- `initializeWithContext` with the caller's hold on `db.mu` made explicit:
`sync.RWMutex.Lock` is not reentrant, so if the caller already holds the
exclusive lock and the fast-path flag check fails, the nested `db.mu.Lock()`
blocks forever. -/
def initRangeLocked (muHeld : Bool) (env : LoadEnv) (st : RangeState) : CallOutcome :=
  if st.initDone then .returned st st.initErr
  else if muHeld then .blocked st
  else
    match initRangeWC env st with
    | (st1, r) => .returned st1 r

/-- The field updates `ReloadWithContext` performs after taking `db.mu`:
reset the flag, drop the ranges, clear the sticky error and the cache. -/
def reloadClear (st : RangeState) : RangeState :=
  { st with initDone := false, ranges := [], initErr := none,
            cache := lruClear st.cache }

/-- `ReloadWithContext` (db.go): takes `db.mu.Lock()`, clears the state, then
calls `initializeWithContext` while still holding `db.mu`. -/
def reloadRangeWC (env : LoadEnv) (st : RangeState) : CallOutcome :=
  initRangeLocked true env (reloadClear st)

/-- The reload pipeline's effect on the engine's data, with the nested lock
acquisition abstracted away (its self-deadlock is treated by `reloadRangeWC`):
clear, then run the load body sequentially. -/
def reloadPipeline (env : LoadEnv) (st : RangeState) : RangeState × Option LoadErr :=
  initRangeWC env (reloadClear st)

/-! ## Exact engine (ExactIPCountryMap) -/

/-- The mutable fields of `ExactIPCountryMap`: the exact map (modelled as an
association list rebuilt by each load), flag, sticky error slot, cache and the
accumulated parse errors. -/
structure ExactState where
  ipMap : List (Nat × List Char)
  initDone : Bool
  initErr : Option LoadErr
  cache : LruCache
  parseErrors : List ParseErr
  config : Config
deriving DecidableEq

/-- A freshly constructed `ExactIPCountryMap`. -/
def newExactState (cfg : Config) : ExactState :=
  let cfg := normalizeConfig cfg
  ⟨[], false, none, newLRUCache cfg.cacheSize.toNat, [], cfg⟩

/-- Go map assignment `m[k] = v` on the association-list model. -/
def mapUpsert (m : List (Nat × List Char)) (k : Nat) (v : List Char) :
    List (Nat × List Char) :=
  if (m.find? (fun p => p.1 == k)).isSome then
    m.map (fun p => if p.1 == k then (k, v) else p)
  else m ++ [(k, v)]

/-- `parseLine` of the exact engine: 2 fields, `(code, ipNum)`. -/
def parseLineExact (cfg : Config) (line : List Char) :
    Except LineErr (List Char × Nat) :=
  match splitOnChars line cfg.delimiter with
  | [p0, p1] =>
    match parseIPChars (trimChars p0) with
    | none => .error .badIP
    | some ip =>
      let cc := trimChars p1
      if cc = [] then .error .emptyCode else .ok (cc, ip)
  | parts => .error (.fieldCount parts.length)

/-- The scan loop of the exact engine's `parseFileWithContext`.  The Go loop
writes into `m.ipMap` and `m.parseErrors` in place; the model threads exactly
those two fields, so a cancelled or failed scan hands the partially filled map
back to `parseFileExact`, which stores it in the state. -/
def exactLoop (cfg : Config) (cancelAt : Option Nat) :
    List (List Char) → Nat → Nat → List (Nat × List Char) → List ParseErr →
    List (Nat × List Char) × List ParseErr × LoopEnd
  | [], _, _, m, pe => (m, pe, .stopEnd)
  | line :: rest, lineNum, processed, m, pe =>
    if ctxDoneAt cancelAt (lineNum + 1) then (m, pe, .stopCancelled)
    else
      let n := lineNum + 1
      let l := trimChars line
      if l = [] ∨ (cfg.skipHeader ∧ n = 1) then
        exactLoop cfg cancelAt rest n processed m pe
      else
        match parseLineExact cfg l with
        | .error e =>
          exactLoop cfg cancelAt rest n processed m (pe ++ [⟨n, l, e⟩])
        | .ok (code, ip) =>
          if cfg.maxRanges > 0 ∧ ((processed + 1 : Nat) : Int) ≥ cfg.maxRanges then
            (mapUpsert m ip code, pe, .stopBroke)
          else
            exactLoop cfg cancelAt rest n (processed + 1) (mapUpsert m ip code) pe

/-- Store the scan loop's outcome in the engine state, surfacing a scanner
error only when the loop consumed its whole input. -/
def finishExactScan (st : ExactState) (scanFails : Bool)
    (res : List (Nat × List Char) × List ParseErr × LoopEnd) :
    ExactState × Option LoadErr :=
  match res with
  | (m, pe, .stopCancelled) =>
    ({ st with ipMap := m, parseErrors := pe }, some .cancelled)
  | (m, pe, .stopBroke) => ({ st with ipMap := m, parseErrors := pe }, none)
  | (m, pe, .stopEnd) =>
    if scanFails then ({ st with ipMap := m, parseErrors := pe }, some .scannerFailed)
    else ({ st with ipMap := m, parseErrors := pe }, none)

/-- The exact engine's `parseFileWithContext`: open/stat/size checks leave the
state untouched; otherwise the map and the error list are rebuilt from empty
by the scan loop, whose partial contents are stored even on failure. -/
def parseFileExact (env : LoadEnv) (st : ExactState) : ExactState × Option LoadErr :=
  if env.openFails then (st, some .fileOpenFailed)
  else if env.statFails then (st, some .fileStatFailed)
  else if st.config.maxFileSize > 0 ∧ env.fileSize > st.config.maxFileSize then
    (st, some (.sizeExceeded env.fileSize st.config.maxFileSize))
  else
    finishExactScan st env.scanFails (exactLoop st.config env.cancelAt env.lines 0 0 [] [])

/-- Record the parse outcome in the sticky slots (same flag/sticky-error
quirks as the range engine). -/
def finishExactInit (pr : ExactState × Option LoadErr) : ExactState × Option LoadErr :=
  match pr with
  | (st1, some e) => ({ st1 with initErr := some e }, some e)
  | (st1, none) => ({ st1 with initDone := true }, none)

/-- The body of the exact engine's `initializeWithContext` as a sequential
state transformer. -/
def initExactWC (env : LoadEnv) (st : ExactState) : ExactState × Option LoadErr :=
  if st.initDone then (st, st.initErr)
  else finishExactInit (parseFileExact env st)

/-- The cache-hit half of the exact engine's `findCountryForIP`. -/
def exactHitResult (st : ExactState) (c1 : LruCache) (e : CacheEntry) :
    ExactState × LookupRes :=
  ({ st with cache := c1 }, if e.found then .found e.country e.code else .missCached)

/-- The cache-miss half of the exact engine's `findCountryForIP`: a direct map
probe, both outcome kinds written back to the cache. -/
def exactMissSearch (st : ExactState) (c1 : LruCache) (ip : Nat) :
    ExactState × LookupRes :=
  match st.ipMap.find? (fun p => p.1 == ip) with
  | some p =>
    ({ st with cache := lruPut c1 ip ⟨p.2, p.2, ip, true⟩ }, .found p.2 p.2)
  | none =>
    ({ st with cache := lruPut c1 ip ⟨[], [], ip, false⟩ }, .missFresh)

/-- The exact engine's `findCountryForIP`: cache first, then a direct map
probe. -/
def findCountryForIPExact (st : ExactState) (ip : Nat) : ExactState × LookupRes :=
  match lruGet st.cache ip with
  | (c1, some e) => exactHitResult st c1 e
  | (c1, none) => exactMissSearch st c1 ip

/-- Translate an exact-engine lookup result into `GetCountry`'s return value. -/
def exactToCountry (fr : ExactState × LookupRes) :
    ExactState × Except LookupErr (List Char) :=
  match fr with
  | (st2, .found c _) => (st2, .ok c)
  | (st2, .missFresh) => (st2, .error .notFound)
  | (st2, .missCached) => (st2, .error .notFoundCachedMiss)

/-- Translate an exact-engine lookup result into `GetCountryCode`'s return
value. -/
def exactToCode (fr : ExactState × LookupRes) :
    ExactState × Except LookupErr (List Char) :=
  match fr with
  | (st2, .found _ k) => (st2, .ok k)
  | (st2, .missFresh) => (st2, .error .notFound)
  | (st2, .missCached) => (st2, .error .notFoundCachedMiss)

/-- The post-initialization part of the exact engine's `GetCountryWithContext`. -/
def getCountryExactAfterInit (st1 : ExactState) (ipStr : List Char) :
    ExactState × Except LookupErr (List Char) :=
  match parseIPChars ipStr with
  | none => (st1, .error .invalidIP)
  | some ip => exactToCountry (findCountryForIPExact st1 ip)

/-- The post-initialization part of the exact engine's
`GetCountryCodeWithContext`. -/
def getCountryCodeExactAfterInit (st1 : ExactState) (ipStr : List Char) :
    ExactState × Except LookupErr (List Char) :=
  match parseIPChars ipStr with
  | none => (st1, .error .invalidIP)
  | some ip => exactToCode (findCountryForIPExact st1 ip)

/-- The exact engine's `GetCountryWithContext`. -/
def getCountryExactWC (env : LoadEnv) (st : ExactState) (ipStr : List Char) :
    ExactState × Except LookupErr (List Char) :=
  match initExactWC env st with
  | (st1, some e) => (st1, .error (.initFailed e))
  | (st1, none) => getCountryExactAfterInit st1 ipStr

/-- The exact engine's `GetCountryCodeWithContext`. -/
def getCountryCodeExactWC (env : LoadEnv) (st : ExactState) (ipStr : List Char) :
    ExactState × Except LookupErr (List Char) :=
  match initExactWC env st with
  | (st1, some e) => (st1, .error (.initFailed e))
  | (st1, none) => getCountryCodeExactAfterInit st1 ipStr

/-- Lock-aware outcome for the exact engine's Reload (mirrors `CallOutcome`). -/
inductive ExactCallOutcome where
  | blocked (st : ExactState)
  | returned (st : ExactState) (r : Option LoadErr)
deriving DecidableEq

/-- The exact engine's `initializeWithContext` with the caller's hold on `m.mu`
made explicit (same non-reentrant `Lock` as the range engine). -/
def initExactLocked (muHeld : Bool) (env : LoadEnv) (st : ExactState) :
    ExactCallOutcome :=
  if st.initDone then .returned st st.initErr
  else if muHeld then .blocked st
  else
    match initExactWC env st with
    | (st1, r) => .returned st1 r

/-- The field updates the exact engine's `ReloadWithContext` performs after
taking `m.mu`. -/
def reloadClearExact (st : ExactState) : ExactState :=
  { st with initDone := false, ipMap := [], initErr := none,
            cache := lruClear st.cache }

/-- The exact engine's `ReloadWithContext`: takes `m.mu.Lock()`, clears the
state, then calls `initializeWithContext` while still holding `m.mu`. -/
def reloadExactWC (env : LoadEnv) (st : ExactState) : ExactCallOutcome :=
  initExactLocked true env (reloadClearExact st)

/-! ## Standalone range validator (README.md: ValidateIPRanges) -/

/-- Violations reported by `ValidateIPRanges`: an invalid range at a sorted
index (wrapping the `Validate` error, which for `start > end` carries the
offending bounds) or an overlapping adjacent pair identified by both bounds. -/
inductive VError where
  | invalidAtIndex (i : Nat) (e : LineErr)
  | overlap (s1 e1 s2 e2 : Nat)
deriving DecidableEq

/-- The `for i := 1; ...` loop of `ValidateIPRanges`: validate the current
range, then check it does not overlap its predecessor. -/
def validateIPRangesLoop : IPRange → List IPRange → Nat → Option VError
  | _, [], _ => none
  | prev, cur :: rest, i =>
    match cur.validateR with
    | some e => some (.invalidAtIndex i e)
    | none =>
      if prev.endIP ≥ cur.startIP then
        some (.overlap prev.startIP prev.endIP cur.startIP cur.endIP)
      else validateIPRangesLoop cur rest (i + 1)

/-- Validate the first sorted range, then enter the adjacent-pair walk. -/
def validateHead (first : IPRange) (rest : List IPRange) : Option VError :=
  match first.validateR with
  | some e => some (.invalidAtIndex 0 e)
  | none => validateIPRangesLoop first rest 1

/-- The body of `ValidateIPRanges` on the sorted copy: validate the first
range, then walk adjacent pairs. -/
def validateSorted : List IPRange → Option VError
  | [] => none
  | first :: rest => validateHead first rest

/-- `ValidateIPRanges` (README.md): empty input is accepted; otherwise sort a
copy by `StartIP`, validate the first range, then walk adjacent pairs. -/
def validateIPRanges (l : List IPRange) : Option VError :=
  if l.isEmpty then none
  else validateSorted (sortByStart l)

/-! ## Derived predicates and operation sequences used by the claims -/

deriving instance DecidableEq for Except

/-- Every committed range mirrors its country field into its code field
(established by `parseLine`, which assigns both from the same field). -/
def mirrorRanges (l : List IPRange) : Prop :=
  ∀ r ∈ l, r.country = r.code

/-- Every cache entry mirrors its country field into its code field. -/
def mirrorCache (c : LruCache) : Prop :=
  ∀ p ∈ c.evictList, p.2.country = p.2.code

instance (l : List IPRange) : Decidable (mirrorRanges l) := by
  unfold mirrorRanges; infer_instance

instance (c : LruCache) : Decidable (mirrorCache c) := by
  unfold mirrorCache; infer_instance

/-- Consistency of the two cache structures: no duplicate keys, and the key
map and the recency list hold exactly the same keys. -/
def lruConsistent (c : LruCache) : Prop :=
  c.items.Nodup ∧ (c.evictList.map Prod.fst).Nodup ∧
  (∀ k ∈ c.items, k ∈ c.evictList.map Prod.fst) ∧
  (∀ k ∈ c.evictList.map Prod.fst, k ∈ c.items)

instance (c : LruCache) : Decidable (lruConsistent c) := by
  unfold lruConsistent; infer_instance

/-- The full cache invariant: consistency, the capacity bound, and a positive
capacity (the constructors never produce capacity 0). -/
def lruInv (c : LruCache) : Prop :=
  lruConsistent c ∧ c.evictList.length ≤ c.capacity ∧ 1 ≤ c.capacity

instance (c : LruCache) : Decidable (lruInv c) := by
  unfold lruInv; infer_instance

/-- The cache's public operations, for stating the invariant over arbitrary
operation sequences. -/
inductive CacheOp where
  | get (k : Nat)
  | put (k : Nat) (v : CacheEntry)
  | clearAll
deriving DecidableEq

/-- Apply one cache operation (dropping `get`'s returned value). -/
def applyOp (c : LruCache) : CacheOp → LruCache
  | .get k => (lruGet c k).1
  | .put k v => lruPut c k v
  | .clearAll => lruClear c

/-- Apply a sequence of cache operations. -/
def applyOps (c : LruCache) (ops : List CacheOp) : LruCache :=
  ops.foldl applyOp c

/-- Collapse the two textual variants of the not-found error ("country not
found for IP" and "... (cached miss)") into one outcome, as the spec's "same
not-found outcome" does. -/
def normNotFound (r : Except LookupErr (List Char)) : Except LookupErr (List Char) :=
  match r with
  | .error .notFoundCachedMiss => .error .notFound
  | r => r

/-! ## Concrete data used by witnesses and counterexamples

The dataset of spec §8: `1.0.0.0-1.0.0.255=AU, 1.0.1.0-1.0.3.255=CN,
8.8.8.0-8.8.8.255=US`. -/

def auRange : IPRange := ⟨['A','U'], ['A','U'], 16777216, 16777471⟩

def cnRange : IPRange := ⟨['C','N'], ['C','N'], 16777472, 16778239⟩

def usRange : IPRange := ⟨['U','S'], ['U','S'], 134744064, 134744319⟩

def exRanges : List IPRange := [auRange, cnRange, usRange]

def goodLines : List (List Char) :=
  ["1.0.0.0,1.0.0.255,AU".toList, "1.0.1.0,1.0.3.255,CN".toList,
   "8.8.8.0,8.8.8.255,US".toList]

/-- An environment in which the load succeeds with the §8 dataset. -/
def envGood : LoadEnv := ⟨false, false, 100, goodLines, none, false⟩

/-- An environment in which `os.Open` fails. -/
def envOpenFail : LoadEnv := ⟨true, false, 100, goodLines, none, false⟩

/-- An environment whose dataset contains the overlapping pair `[0,100]` and
`[50,150]` of spec §8. -/
def envOverlap : LoadEnv :=
  ⟨false, false, 100,
   ["0.0.0.0,0.0.0.100,AA".toList, "0.0.0.50,0.0.0.150,BB".toList], none, false⟩

/-- An already-sorted overlapping pair for the standalone validator's
rejection branch: `[0,100]` and `[50,150]`. -/
def ovRanges : List IPRange :=
  [⟨"AA".toList, "AA".toList, 0, 100⟩, ⟨"BB".toList, "BB".toList, 50, 150⟩]

/-- A freshly constructed range engine on the default configuration. -/
def st0 : RangeState := newRangeState defaultConfig

/-- The engine state after a successful first load of the §8 dataset. -/
def stLoaded : RangeState := (initRangeWC envGood st0).1

def exLines : List (List Char) := ["1.2.3.4,US".toList, "5.6.7.8,DE".toList]

/-- An environment whose context is cancelled at the second scan iteration. -/
def envCancel2 : LoadEnv := ⟨false, false, 10, exLines, some 2, false⟩

/-- A freshly constructed exact engine on the default configuration. -/
def ex0 : ExactState := newExactState defaultConfig

/-! Concrete cache entries and the capacity-2 A/B/C scenario of spec §8. -/

def eA : CacheEntry := ⟨['A'], ['A'], 1, true⟩

def eB : CacheEntry := ⟨['B'], ['B'], 2, true⟩

def eC : CacheEntry := ⟨['C'], ['C'], 3, true⟩

/-- A capacity-2 cache after `put 1 eA; put 2 eB; put 3 eC`. -/
def cDemo : LruCache :=
  lruPut (lruPut (lruPut (newLRUCache 2) 1 eA) 2 eB) 3 eC

/-! ## Helper lemmas: Go's sort.Search

`sort.Search` is specified (and implemented, see `sortSearchGo`) to return the
smallest index in `[0, n)` at which the monotone predicate holds, or `n`. -/

theorem sortSearchGo_le (f : Nat → Bool) :
    ∀ fuel i j, i ≤ j → i ≤ sortSearchGo f fuel i j ∧ sortSearchGo f fuel i j ≤ j := by
  intro fuel
  induction fuel with
  | zero => intro i j hij; simp [sortSearchGo]; omega
  | succ fuel ih =>
    intro i j hij
    by_cases hlt : i < j
    · have hm1 : i ≤ (i + j) / 2 := by omega
      have hm2 : (i + j) / 2 < j := by omega
      by_cases hf : f ((i + j) / 2) = true
      · have := ih i ((i + j) / 2) (by omega)
        simp only [sortSearchGo, if_pos hlt, if_pos hf]
        omega
      · have := ih ((i + j) / 2 + 1) j (by omega)
        simp only [sortSearchGo, if_pos hlt, if_neg hf]
        omega
    · simp only [sortSearchGo, if_neg hlt]; omega

theorem sortSearchGo_spec (f : Nat → Bool) (n : Nat)
    (hmono : ∀ a b, a ≤ b → b < n → f a = true → f b = true) :
    ∀ fuel i j, j - i ≤ fuel → i ≤ j → j ≤ n →
      (∀ k, i ≤ k → k < sortSearchGo f fuel i j → f k = false) ∧
      (sortSearchGo f fuel i j < j → f (sortSearchGo f fuel i j) = true) := by
  intro fuel
  induction fuel with
  | zero =>
    intro i j hfu hij hjn
    have hieq : i = j := by omega
    simp only [sortSearchGo]
    constructor
    · intro k hik hk; omega
    · intro h; omega
  | succ fuel ih =>
    intro i j hfu hij hjn
    by_cases hlt : i < j
    · have hm1 : i ≤ (i + j) / 2 := by omega
      have hm2 : (i + j) / 2 < j := by omega
      by_cases hf : f ((i + j) / 2) = true
      · simp only [sortSearchGo, if_pos hlt, if_pos hf]
        obtain ⟨h3, h4⟩ := ih i ((i + j) / 2) (by omega) (by omega) (by omega)
        obtain ⟨hb1, hb2⟩ := sortSearchGo_le f fuel i ((i + j) / 2) (by omega)
        refine ⟨h3, ?_⟩
        intro _hlt
        rcases Nat.lt_or_ge (sortSearchGo f fuel i ((i + j) / 2)) ((i + j) / 2) with h | h
        · exact h4 h
        · have heq : sortSearchGo f fuel i ((i + j) / 2) = (i + j) / 2 := by omega
          rw [heq]; exact hf
      · simp only [sortSearchGo, if_pos hlt, if_neg hf]
        have hfm : f ((i + j) / 2) = false := by
          cases hv : f ((i + j) / 2) with
          | false => rfl
          | true => exact absurd hv hf
        obtain ⟨h3, h4⟩ := ih ((i + j) / 2 + 1) j (by omega) (by omega) hjn
        refine ⟨?_, h4⟩
        intro k hik hk
        rcases Nat.lt_or_ge k ((i + j) / 2 + 1) with hkm | hkm
        · cases hv : f k with
          | false => rfl
          | true =>
            have := hmono k ((i + j) / 2) (by omega) (by omega) hv
            rw [this] at hfm
            exact absurd hfm (by simp)
        · exact h3 k hkm hk
    · simp only [sortSearchGo, if_neg hlt]
      constructor
      · intro k hik hk; omega
      · intro h; omega

theorem sortSearch_spec (n : Nat) (f : Nat → Bool)
    (hmono : ∀ a b, a ≤ b → b < n → f a = true → f b = true) :
    sortSearch n f ≤ n ∧
    (∀ k, k < sortSearch n f → f k = false) ∧
    (∀ k, sortSearch n f ≤ k → k < n → f k = true) := by
  unfold sortSearch
  obtain ⟨hb1, hb2⟩ := sortSearchGo_le f n 0 n (by omega)
  obtain ⟨h3, h4⟩ := sortSearchGo_spec f n hmono n 0 n (by omega) (by omega) (by omega)
  refine ⟨hb2, fun k hk => h3 k (by omega) hk, ?_⟩
  intro k hrk hkn
  exact hmono (sortSearchGo f n 0 n) k hrk hkn (h4 (by omega))

/-- `find?` returns the element at the first index satisfying the predicate. -/
theorem find?_first {α : Type} (p : α → Bool) (d : α) :
    ∀ (l : List α) (i : Nat), i < l.length →
      (∀ j, j < i → p (l.getD j d) = false) → p (l.getD i d) = true →
      l.find? p = some (l.getD i d) := by
  intro l
  induction l with
  | nil => intro i hi; simp at hi
  | cons a t ih =>
    intro i hi h1 h2
    cases i with
    | zero =>
      rw [List.getD_cons_zero] at h2 ⊢
      simp only [List.find?, h2]
    | succ m =>
      have ha : p a = false := by
        have := h1 0 (by omega)
        rwa [List.getD_cons_zero] at this
      simp only [List.find?, ha]
      rw [List.getD_cons_succ] at h2 ⊢
      exact ih m (by simpa using hi)
        (fun j hj => by rw [← @List.getD_cons_succ _ a t j d]; exact h1 (j + 1) (by omega)) h2

/-! ## Helper lemmas: correctness of the cache-free range lookup -/

theorem rangeSearchIdx_le (ranges : List IPRange) (ip : Nat) :
    rangeSearchIdx ranges ip ≤ ranges.length :=
  (sortSearchGo_le _ ranges.length 0 ranges.length (Nat.zero_le _)).2

theorem rangeLookupPure_eq_find (ranges : List IPRange) (ip : Nat)
    (hsort : List.Pairwise (fun a b => a.startIP ≤ b.startIP) ranges)
    (hdisj : List.Pairwise (fun a b => a.endIP < b.startIP) ranges) :
    rangeLookupPure ranges ip =
      (ranges.find? (fun r => r.containsIP ip)).map (fun r => (r.country, r.code)) := by
  have hsortIdx := List.pairwise_iff_getElem.mp hsort
  have hdisjIdx := List.pairwise_iff_getElem.mp hdisj
  have hmono : ∀ a b, a ≤ b → b < ranges.length →
      (fun i => decide (ip < (ranges.getD i default).startIP)) a = true →
      (fun i => decide (ip < (ranges.getD i default).startIP)) b = true := by
    intro a b hab hbn hfa
    have han : a < ranges.length := by omega
    simp only [decide_eq_true_eq] at hfa ⊢
    rw [List.getD_eq_getElem ranges default hbn]
    rw [List.getD_eq_getElem ranges default han] at hfa
    rcases Nat.eq_or_lt_of_le hab with he | hl
    · subst he; exact hfa
    · have := hsortIdx a b han hbn hl
      omega
  obtain ⟨hle, hlow0, hhigh0⟩ := sortSearch_spec ranges.length _ hmono
  have hEq : rangeSearchIdx ranges ip =
      sortSearch ranges.length (fun i => decide (ip < (ranges.getD i default).startIP)) := rfl
  rw [← hEq] at hle hlow0 hhigh0
  have hlow : ∀ k, k < rangeSearchIdx ranges ip → (ranges.getD k default).startIP ≤ ip := by
    intro k hk
    have := hlow0 k hk
    simp only [decide_eq_false_iff_not, Nat.not_lt] at this
    exact this
  have hhigh : ∀ k, rangeSearchIdx ranges ip ≤ k → k < ranges.length →
      ip < (ranges.getD k default).startIP := by
    intro k h1 h2
    have := hhigh0 k h1 h2
    simpa only [decide_eq_true_eq] using this
  unfold rangeLookupPure
  by_cases hpos : 0 < rangeSearchIdx ranges ip
  · have hn0 : 0 < ranges.length := by
      have := rangeSearchIdx_le ranges ip; omega
    have him : rangeSearchIdx ranges ip - 1 < ranges.length := by
      have := rangeSearchIdx_le ranges ip; omega
    have hstart : (ranges.getD (rangeSearchIdx ranges ip - 1) default).startIP ≤ ip :=
      hlow (rangeSearchIdx ranges ip - 1) (by omega)
    rw [if_pos hpos]
    by_cases hcont : (ranges.getD (rangeSearchIdx ranges ip - 1) default).containsIP ip = true
    · rw [if_pos hcont]
      have hfind : ranges.find? (fun r => r.containsIP ip) =
          some (ranges.getD (rangeSearchIdx ranges ip - 1) default) := by
        apply find?_first _ default ranges (rangeSearchIdx ranges ip - 1) him _ hcont
        intro j hj
        have hjn : j < ranges.length := by omega
        have hd := hdisjIdx j (rangeSearchIdx ranges ip - 1) hjn him (by omega)
        rw [List.getD_eq_getElem ranges default him] at hstart
        rw [List.getD_eq_getElem ranges default hjn]
        have h2 : decide (ip ≤ ranges[j].endIP) = false := decide_eq_false (by omega)
        simp [IPRange.containsIP, h2]
      rw [hfind]; rfl
    · rw [if_neg hcont]
      have hfind : ranges.find? (fun r => r.containsIP ip) = none := by
        rw [List.find?_eq_none]
        intro q hq
        obtain ⟨k, hk, rfl⟩ := List.mem_iff_getElem.mp hq
        rcases lt_trichotomy k (rangeSearchIdx ranges ip - 1) with h | h | h
        · have hd := hdisjIdx k (rangeSearchIdx ranges ip - 1) hk him h
          rw [List.getD_eq_getElem ranges default him] at hstart
          have h2 : decide (ip ≤ ranges[k].endIP) = false := decide_eq_false (by omega)
          simp [IPRange.containsIP, h2]
        · subst h
          rw [List.getD_eq_getElem ranges default him] at hcont
          simpa using hcont
        · have := hhigh k (by omega) hk
          rw [List.getD_eq_getElem ranges default hk] at this
          have h1 : decide (ranges[k].startIP ≤ ip) = false := decide_eq_false (by omega)
          simp [IPRange.containsIP, h1]
      rw [hfind]; rfl
  · rw [if_neg hpos]
    have hfind : ranges.find? (fun r => r.containsIP ip) = none := by
      rw [List.find?_eq_none]
      intro q hq
      obtain ⟨k, hk, rfl⟩ := List.mem_iff_getElem.mp hq
      have := hhigh k (by omega) hk
      rw [List.getD_eq_getElem ranges default hk] at this
      have h1 : decide (ranges[k].startIP ≤ ip) = false := decide_eq_false (by omega)
      simp [IPRange.containsIP, h1]
    rw [hfind]; rfl

/-! ## C1: binary-search lookup agrees with a linear scan -/

/-- C1: for every committed range collection that is sorted by start and
strictly non-overlapping, and every numeric IP, the range engine's lookup
returns the code of the range whose inclusive `[start, end]` interval contains
the IP and not-found when no range contains it; equivalently, it computes the
same outcome as a linear scan (`find?`) over the ranges.  The last conjunct
transports this to `findCountryForIP` itself on any state whose cache does not
yet hold the queried IP. -/
theorem c1_range_lookup_matches_linear_scan (ranges : List IPRange) (ip : Nat)
    (hsort : List.Pairwise (fun a b => a.startIP ≤ b.startIP) ranges)
    (hdisj : List.Pairwise (fun a b => a.endIP < b.startIP) ranges) :
    rangeLookupPure ranges ip =
      (ranges.find? (fun r => r.containsIP ip)).map (fun r => (r.country, r.code)) ∧
    (∀ r ∈ ranges, r.containsIP ip = true →
      rangeLookupPure ranges ip = some (r.country, r.code)) ∧
    ((∀ r ∈ ranges, r.containsIP ip = false) → rangeLookupPure ranges ip = none) ∧
    (∀ st : RangeState, st.ranges = ranges → st.cache.items.contains ip = false →
      toOutcome (findCountryForIP st ip).2 = rangeLookupPure ranges ip) := by
  have hmain := rangeLookupPure_eq_find ranges ip hsort hdisj
  refine ⟨hmain, ?_, ?_, ?_⟩
  · intro r hr hc
    obtain ⟨k, hk, rfl⟩ := List.mem_iff_getElem.mp hr
    have hdisjIdx := List.pairwise_iff_getElem.mp hdisj
    have hstart : ranges[k].startIP ≤ ip := by
      simp only [IPRange.containsIP, Bool.and_eq_true, decide_eq_true_eq] at hc
      exact hc.1
    have hfind : ranges.find? (fun q => q.containsIP ip) = some (ranges.getD k default) := by
      apply find?_first _ default ranges k hk
      · intro j hj
        have hjn : j < ranges.length := by omega
        have hd := hdisjIdx j k hjn hk hj
        rw [List.getD_eq_getElem ranges default hjn]
        have h2 : decide (ip ≤ ranges[j].endIP) = false := decide_eq_false (by omega)
        simp [IPRange.containsIP, h2]
      · rw [List.getD_eq_getElem ranges default hk]; exact hc
    rw [hmain, hfind, List.getD_eq_getElem ranges default hk]
    rfl
  · intro hnone
    rw [hmain, List.find?_eq_none.mpr (fun x hx => by rw [hnone x hx]; simp)]
    rfl
  · intro st hranges hcache
    subst hranges
    simp only [findCountryForIP, lruGet, hcache, Bool.false_eq_true, if_false]
    cases hp : rangeLookupPure st.ranges ip with
    | none => simp [cacheMissSearch, hp, toOutcome]
    | some pr =>
      cases pr with
      | mk c k => simp [cacheMissSearch, hp, toOutcome]

/-- Witness for C1 at the §8 dataset and IP `1.0.1.15` (numeric 16777487). -/
theorem c1_witness :
    (List.Pairwise (fun a b => a.startIP ≤ b.startIP) exRanges ∧
     List.Pairwise (fun a b => a.endIP < b.startIP) exRanges) ∧
    (rangeLookupPure exRanges 16777487 =
      (exRanges.find? (fun r => r.containsIP 16777487)).map (fun r => (r.country, r.code)) ∧
    (∀ r ∈ exRanges, r.containsIP 16777487 = true →
      rangeLookupPure exRanges 16777487 = some (r.country, r.code)) ∧
    ((∀ r ∈ exRanges, r.containsIP 16777487 = false) →
      rangeLookupPure exRanges 16777487 = none) ∧
    (∀ st : RangeState, st.ranges = exRanges → st.cache.items.contains 16777487 = false →
      toOutcome (findCountryForIP st 16777487).2 = rangeLookupPure exRanges 16777487)) :=
  ⟨⟨by decide, by decide⟩,
   c1_range_lookup_matches_linear_scan exRanges 16777487 (by decide) (by decide)⟩


/-! ## Helper lemmas: frame properties of the load pipelines -/

theorem parseFileExact_frame (env : LoadEnv) (st : ExactState) :
    (parseFileExact env st).1.initDone = st.initDone ∧
    (parseFileExact env st).1.initErr = st.initErr ∧
    (parseFileExact env st).1.cache = st.cache ∧
    (parseFileExact env st).1.config = st.config := by
  unfold parseFileExact
  by_cases h1 : env.openFails = true
  · rw [if_pos h1]; exact ⟨rfl, rfl, rfl, rfl⟩
  · rw [if_neg h1]
    by_cases h2 : env.statFails = true
    · rw [if_pos h2]; exact ⟨rfl, rfl, rfl, rfl⟩
    · rw [if_neg h2]
      by_cases h3 : st.config.maxFileSize > 0 ∧ env.fileSize > st.config.maxFileSize
      · rw [if_pos h3]; exact ⟨rfl, rfl, rfl, rfl⟩
      · rw [if_neg h3]
        unfold finishExactScan
        generalize exactLoop st.config env.cancelAt env.lines 0 0 [] [] = res
        obtain ⟨m, pe, stop⟩ := res
        cases stop with
        | stopCancelled => exact ⟨rfl, rfl, rfl, rfl⟩
        | stopBroke => exact ⟨rfl, rfl, rfl, rfl⟩
        | stopEnd =>
          by_cases h4 : env.scanFails = true
          · simp only [finishExactScan, h4, if_true]
            exact ⟨trivial, trivial, trivial, trivial⟩
          · simp only [finishExactScan, h4, Bool.false_eq_true, if_false]
            exact ⟨trivial, trivial, trivial, trivial⟩

theorem initRangeWC_err_frame (env : LoadEnv) (st : RangeState) (e : LoadErr)
    (h : (initRangeWC env st).2 = some e) :
    (initRangeWC env st).1.ranges = st.ranges ∧
    (initRangeWC env st).1.initDone = st.initDone ∧
    (initRangeWC env st).1.initErr = some e ∧
    (initRangeWC env st).1.cache = st.cache := by
  by_cases hd : st.initDone = true
  · have heq : initRangeWC env st = (st, st.initErr) := by
      unfold initRangeWC; rw [if_pos hd]
    rw [heq] at h ⊢
    exact ⟨rfl, rfl, h, rfl⟩
  · have heq0 : initRangeWC env st = commitRanges st (parseFileRange st.config env) := by
      unfold initRangeWC; rw [if_neg hd]
    cases hp : parseFileRange st.config env with
    | error e2 =>
      have heq : initRangeWC env st = ({ st with initErr := some e2 }, some e2) := by
        rw [heq0, hp]; rfl
      rw [heq] at h ⊢
      obtain rfl : e2 = e := by simpa using h
      exact ⟨rfl, rfl, rfl, rfl⟩
    | ok pr =>
      obtain ⟨rs, errs⟩ := pr
      have heq1 : initRangeWC env st = commitSorted st (sortByStart rs) := by
        rw [heq0, hp]; rfl
      cases hv : validateRangesGo (sortByStart rs) with
      | some e2 =>
        have heq : initRangeWC env st = ({ st with initErr := some e2 }, some e2) := by
          rw [heq1]; unfold commitSorted; rw [hv]
        rw [heq] at h ⊢
        obtain rfl : e2 = e := by simpa using h
        exact ⟨rfl, rfl, rfl, rfl⟩
      | none =>
        have heq : initRangeWC env st =
            ({ st with ranges := sortByStart rs, initDone := true }, none) := by
          rw [heq1]; unfold commitSorted; rw [hv]
        rw [heq] at h
        simp at h

theorem initExactWC_err_frame (env : LoadEnv) (st : ExactState) (e : LoadErr)
    (h : (initExactWC env st).2 = some e) :
    (initExactWC env st).1.initDone = st.initDone ∧
    (initExactWC env st).1.initErr = some e ∧
    (initExactWC env st).1.cache = st.cache := by
  by_cases hd : st.initDone = true
  · have heq : initExactWC env st = (st, st.initErr) := by
      unfold initExactWC; rw [if_pos hd]
    rw [heq] at h ⊢
    exact ⟨rfl, h, rfl⟩
  · have heq0 : initExactWC env st = finishExactInit (parseFileExact env st) := by
      unfold initExactWC; rw [if_neg hd]
    have hfr := parseFileExact_frame env st
    generalize hl : parseFileExact env st = res at hfr heq0
    obtain ⟨st1, r⟩ := res
    cases r with
    | some e2 =>
      have heq : initExactWC env st = ({ st1 with initErr := some e2 }, some e2) := heq0
      rw [heq] at h ⊢
      obtain rfl : e2 = e := by simpa using h
      exact ⟨hfr.1, rfl, hfr.2.2.1⟩
    | none =>
      have heq : initExactWC env st = ({ st1 with initDone := true }, none) := heq0
      rw [heq] at h
      simp at h

theorem initRangeWC_cache_frame (env : LoadEnv) (st : RangeState) :
    (initRangeWC env st).1.cache = st.cache ∧
    (initRangeWC env st).1.config = st.config := by
  by_cases hd : st.initDone = true
  · have heq : initRangeWC env st = (st, st.initErr) := by
      unfold initRangeWC; rw [if_pos hd]
    rw [heq]
    exact ⟨rfl, rfl⟩
  · have heq0 : initRangeWC env st = commitRanges st (parseFileRange st.config env) := by
      unfold initRangeWC; rw [if_neg hd]
    cases hp : parseFileRange st.config env with
    | error e2 =>
      rw [heq0, hp]
      exact ⟨rfl, rfl⟩
    | ok pr =>
      obtain ⟨rs, errs⟩ := pr
      have heq1 : initRangeWC env st = commitSorted st (sortByStart rs) := by
        rw [heq0, hp]; rfl
      cases hv : validateRangesGo (sortByStart rs) with
      | some e2 =>
        have heq : initRangeWC env st = ({ st with initErr := some e2 }, some e2) := by
          rw [heq1]; unfold commitSorted; rw [hv]
        rw [heq]; exact ⟨rfl, rfl⟩
      | none =>
        have heq : initRangeWC env st =
            ({ st with ranges := sortByStart rs, initDone := true }, none) := by
          rw [heq1]; unfold commitSorted; rw [hv]
        rw [heq]; exact ⟨rfl, rfl⟩

theorem initExactWC_cache_frame (env : LoadEnv) (st : ExactState) :
    (initExactWC env st).1.cache = st.cache ∧
    (initExactWC env st).1.config = st.config := by
  by_cases hd : st.initDone = true
  · have heq : initExactWC env st = (st, st.initErr) := by
      unfold initExactWC; rw [if_pos hd]
    rw [heq]
    exact ⟨rfl, rfl⟩
  · have heq0 : initExactWC env st = finishExactInit (parseFileExact env st) := by
      unfold initExactWC; rw [if_neg hd]
    have hfr := parseFileExact_frame env st
    have hfr2 : (parseFileExact env st).1.config = st.config := hfr.2.2.2
    have hfr3 : (parseFileExact env st).1.cache = st.cache := hfr.2.2.1
    generalize hl : parseFileExact env st = res at hfr2 hfr3 heq0
    obtain ⟨st1, r⟩ := res
    cases r with
    | some e2 => rw [heq0]; exact ⟨hfr3, hfr2⟩
    | none => rw [heq0]; exact ⟨hfr3, hfr2⟩

/-! ## C2: Reload self-deadlocks (termination claim) -/

/-- C2: the claim says every `Reload`/`ReloadWithContext` call terminates,
re-running the load pipeline and returning its result.  In the code,
`ReloadWithContext` holds the engine's exclusive lock and then calls
`initializeWithContext`, which (the reset flag being false) acquires the same
non-reentrant lock again — so every reload call blocks forever, for both
engines, every environment and every starting state. -/
theorem c2_reload_blocks_forever :
    (∀ (env : LoadEnv) (st : RangeState),
      reloadRangeWC env st = .blocked (reloadClear st)) ∧
    (∀ (env : LoadEnv) (st : ExactState),
      reloadExactWC env st = .blocked (reloadClearExact st)) := by
  constructor
  · intro env st
    simp [reloadRangeWC, initRangeLocked, reloadClear]
  · intro env st
    simp [reloadExactWC, initExactLocked, reloadClearExact]

/-! ## C3: the initialization error is not sticky -/

/-- C3: the claim says a failed load leaves every subsequent lookup failing
with the same stored error, without re-executing the load pipeline, until a
reload succeeds.  In the code a failed attempt does not set the `initialized`
flag, so the next lookup re-runs the whole pipeline: after a first lookup
fails (the file cannot be opened), a second lookup in a now-healthy
environment re-loads and returns `CN` instead of the stored error — and
because the successful attempt never clears `initErr`, a third lookup returns
the stale initialization error even though the dataset is committed. -/
theorem c3_error_not_sticky_scenario :
    (getCountryWC envOpenFail st0 "1.0.1.15".toList).2 =
      .error (.initFailed .fileOpenFailed) ∧
    ((getCountryWC envOpenFail st0 "1.0.1.15".toList).1.initErr =
      some .fileOpenFailed ∧
     (getCountryWC envOpenFail st0 "1.0.1.15".toList).1.initDone = false) ∧
    (getCountryWC envGood
      (getCountryWC envOpenFail st0 "1.0.1.15".toList).1 "1.0.1.15".toList).2 =
      .ok ['C','N'] ∧
    (getCountryWC envGood
      (getCountryWC envGood
        (getCountryWC envOpenFail st0 "1.0.1.15".toList).1 "1.0.1.15".toList).1
      "1.0.1.15".toList).2 = .error (.initFailed .fileOpenFailed) ∧
    (getCountryWC envGood
      (getCountryWC envOpenFail st0 "1.0.1.15".toList).1 "1.0.1.15".toList).1.ranges
      ≠ [] := by decide

/-! ## C4: load atomicity -/

/-- Counterexample for C4: a load attempt of the exact engine cancelled at the
second scan iteration fails, yet leaves the first record committed in the
engine's map — the map does not "hold no entries after a failed load attempt". -/
theorem c4_exact_partial_map_counterexample :
    (initExactWC envCancel2 ex0).2 = some .cancelled ∧
    (initExactWC envCancel2 ex0).1.ipMap = [(16909060, ['U','S'])] ∧
    (initExactWC envCancel2 ex0).1.ipMap ≠ [] := by decide

/-- C4 (amended): if any step of a load attempt fails, initialization is
aborted and the engine is not marked initialized; the range engine's dataset
field is left exactly as it was (empty on the first-load path, since nothing
was committed), but the exact engine's map — rebuilt in place during the
scan — may retain the failed attempt's partial entries; they are never served
because the engine remains unmarked. -/
theorem c4_failed_load_aborts :
    (∀ (env : LoadEnv) (st : RangeState) (e : LoadErr),
      (initRangeWC env st).2 = some e →
      (initRangeWC env st).1.ranges = st.ranges ∧
      (initRangeWC env st).1.initDone = st.initDone ∧
      (initRangeWC env st).1.initErr = some e) ∧
    (∀ (env : LoadEnv) (st : ExactState) (e : LoadErr),
      (initExactWC env st).2 = some e →
      (initExactWC env st).1.initDone = st.initDone ∧
      (initExactWC env st).1.initErr = some e) := by
  constructor
  · intro env st e h
    obtain ⟨h1, h2, h3, _⟩ := initRangeWC_err_frame env st e h
    exact ⟨h1, h2, h3⟩
  · intro env st e h
    obtain ⟨h1, h2, _⟩ := initExactWC_err_frame env st e h
    exact ⟨h1, h2⟩

/-- Witness for C4 at the failed-open range load and the cancelled exact load. -/
theorem c4_witness :
    ((initRangeWC envOpenFail st0).2 = some .fileOpenFailed ∧
      ((initRangeWC envOpenFail st0).1.ranges = st0.ranges ∧
       (initRangeWC envOpenFail st0).1.initDone = st0.initDone ∧
       (initRangeWC envOpenFail st0).1.initErr = some .fileOpenFailed)) ∧
    ((initExactWC envCancel2 ex0).2 = some .cancelled ∧
      ((initExactWC envCancel2 ex0).1.initDone = ex0.initDone ∧
       (initExactWC envCancel2 ex0).1.initErr = some .cancelled)) :=
  ⟨⟨by decide, c4_failed_load_aborts.1 envOpenFail st0 .fileOpenFailed (by decide)⟩,
   ⟨by decide, c4_failed_load_aborts.2 envCancel2 ex0 .cancelled (by decide)⟩⟩

/-! ## C5: a failed reload does not keep the old dataset -/

/-- Counterexample for C5: reloading a loaded engine against a dataset whose
overlap validation fails (spec §8's `[0,100]`/`[50,150]`) leaves the engine
with an empty dataset: the previously committed ranges ARE discarded (reload
clears them before re-running the load), contradicting the claim that the old
dataset remains in place. -/
theorem c5_reload_discards_old_dataset :
    stLoaded.ranges ≠ [] ∧
    (reloadPipeline envOverlap stLoaded).2 = some (.overlapFound 0 100 50 150) ∧
    (reloadPipeline envOverlap stLoaded).1.ranges = [] := by decide

/-- C5 (amended): a reload-triggered load attempt discards the old dataset up
front; if the attempt then fails (in particular on overlap validation), the
engine is left with an empty dataset, an unset flag and the error recorded —
the previously committed ranges never survive a failed reload.  (Only the
lazy-init path, which never had a committed dataset, leaves the ranges field
untouched on failure.) -/
theorem c5_failed_reload_leaves_no_dataset (env : LoadEnv) (st : RangeState)
    (e : LoadErr) (h : (reloadPipeline env st).2 = some e) :
    (reloadPipeline env st).1.ranges = [] ∧
    (reloadPipeline env st).1.initDone = false ∧
    (reloadPipeline env st).1.initErr = some e := by
  unfold reloadPipeline at h ⊢
  obtain ⟨h1, h2, h3, _⟩ := initRangeWC_err_frame env (reloadClear st) e h
  refine ⟨?_, ?_, h3⟩
  · rw [h1]; rfl
  · rw [h2]; rfl

/-- Witness for C5 at the overlapping reload of the loaded §8 engine. -/
theorem c5_witness :
    (reloadPipeline envOverlap stLoaded).2 = some (.overlapFound 0 100 50 150) ∧
    ((reloadPipeline envOverlap stLoaded).1.ranges = [] ∧
     (reloadPipeline envOverlap stLoaded).1.initDone = false ∧
     (reloadPipeline envOverlap stLoaded).1.initErr =
       some (.overlapFound 0 100 50 150)) :=
  ⟨by decide,
   c5_failed_reload_leaves_no_dataset envOverlap stLoaded
     (.overlapFound 0 100 50 150) (by decide)⟩

/-! ## Helper lemmas: the LRU cache -/

theorem find?_key_beq {k : Nat} {l : List (Nat × CacheEntry)} {p : Nat × CacheEntry}
    (h : l.find? (fun q => q.1 == k) = some p) : p.1 = k := by
  have := List.find?_some h
  simpa using this

theorem cons_eraseP_perm {α : Type} (p : α → Bool) :
    ∀ (l : List α) (a : α), l.find? p = some a → (a :: l.eraseP p).Perm l := by
  intro l
  induction l with
  | nil => intro a h; simp at h
  | cons b t ih =>
    intro a h
    by_cases hb : p b = true
    · rw [List.find?_cons_of_pos _ hb] at h
      obtain rfl : b = a := by simpa using h
      rw [List.eraseP_cons_of_pos hb]
    · rw [List.find?_cons_of_neg _ hb] at h
      rw [List.eraseP_cons_of_neg hb]
      exact List.Perm.trans (List.Perm.swap b a _) ((ih a h).cons b)

theorem length_eraseP_of_find? {α : Type} {p : α → Bool} {l : List α} {a : α}
    (h : l.find? p = some a) : (l.eraseP p).length + 1 = l.length := by
  have := (cons_eraseP_perm p l a h).length_eq
  simpa using this

theorem moveToFront_perm (k : Nat) (l : List (Nat × CacheEntry)) :
    (moveToFront k l).Perm l := by
  unfold moveToFront
  cases h : l.find? (fun q => q.1 == k) with
  | none => exact List.Perm.refl l
  | some p => exact cons_eraseP_perm _ l p h

theorem moveToFront_find? (k : Nat) (l : List (Nat × CacheEntry)) :
    (moveToFront k l).find? (fun q => q.1 == k) = l.find? (fun q => q.1 == k) := by
  unfold moveToFront
  cases h : l.find? (fun q => q.1 == k) with
  | none => exact h
  | some p =>
    have hk : p.1 = k := find?_key_beq h
    have hp : (p.1 == k) = true := by simp [hk]
    show List.find? (fun q => q.1 == k) (p :: List.eraseP (fun q => q.1 == k) l) = some p
    exact List.find?_cons_of_pos _ hp

theorem lruGet_miss (c : LruCache) (k : Nat) (h : c.items.contains k = false) :
    lruGet c k = (⟨c.capacity, c.items, c.evictList, c.hits, c.misses + 1⟩, none) := by
  have h2 : ¬k ∈ c.items := by simpa using h
  simp [lruGet, h2]

theorem lruGet_hit (c : LruCache) (k : Nat) (h : c.items.contains k = true) :
    lruGet c k =
      (⟨c.capacity, c.items, moveToFront k c.evictList, c.hits + 1, c.misses⟩,
        some (((c.evictList.find? (fun p => p.1 == k)).map Prod.snd).getD default)) := by
  have h2 : k ∈ c.items := by simpa using h
  simp [lruGet, h2]

theorem lruPut_existing (c : LruCache) (k : Nat) (v : CacheEntry)
    (h : c.items.contains k = true) :
    lruPut c k v =
      ⟨c.capacity, c.items, (k, v) :: c.evictList.eraseP (fun p => p.1 == k),
       c.hits, c.misses⟩ := by
  have h2 : k ∈ c.items := by simpa using h
  simp [lruPut, h2]

theorem lruPut_new_evict (c : LruCache) (k : Nat) (v : CacheEntry)
    (h1 : c.items.contains k = false) (h2 : c.evictList.length ≥ c.capacity) :
    lruPut c k v =
      ⟨(removeOldest c).capacity, k :: (removeOldest c).items,
       (k, v) :: (removeOldest c).evictList,
       (removeOldest c).hits, (removeOldest c).misses⟩ := by
  have h3 : ¬k ∈ c.items := by simpa using h1
  simp [lruPut, h3, h2]

theorem lruPut_new_room (c : LruCache) (k : Nat) (v : CacheEntry)
    (h1 : c.items.contains k = false) (h2 : ¬c.evictList.length ≥ c.capacity) :
    lruPut c k v =
      ⟨c.capacity, k :: c.items, (k, v) :: c.evictList, c.hits, c.misses⟩ := by
  have h3 : ¬k ∈ c.items := by simpa using h1
  simp [lruPut, h3, h2]

theorem removeOldest_of_ne_nil (c : LruCache) (h : c.evictList ≠ []) :
    removeOldest c =
      ⟨c.capacity, c.items.erase (c.evictList.getLast h).1,
       c.evictList.dropLast, c.hits, c.misses⟩ := by
  unfold removeOldest
  rw [List.getLast?_eq_getLast c.evictList h]

/-- A key present in the key map has a node in the recency list (consistency). -/
theorem find?_isSome_of_consistent (c : LruCache) (hcons : lruConsistent c)
    (k : Nat) (h : c.items.contains k = true) :
    ∃ p, c.evictList.find? (fun q => q.1 == k) = some p := by
  have hk : k ∈ c.items := by simpa using h
  have hk2 : k ∈ c.evictList.map Prod.fst := hcons.2.2.1 k hk
  obtain ⟨p, hp, hpk⟩ := List.mem_map.mp hk2
  have : (c.evictList.find? (fun q => q.1 == k)).isSome = true :=
    List.find?_isSome.mpr ⟨p, hp, by simpa using hpk⟩
  cases hres : c.evictList.find? (fun q => q.1 == k) with
  | none => rw [hres] at this; simp at this
  | some q => exact ⟨q, rfl⟩

theorem removeOldest_frame (c : LruCache) :
    (removeOldest c).capacity = c.capacity ∧
    (removeOldest c).hits = c.hits ∧ (removeOldest c).misses = c.misses := by
  unfold removeOldest
  cases c.evictList.getLast? <;> exact ⟨rfl, rfl, rfl⟩

/-- `lruGet` preserves the cache invariant. -/
theorem lruInv_get (c : LruCache) (k : Nat) (h : lruInv c) : lruInv (lruGet c k).1 := by
  by_cases hc : c.items.contains k = true
  · rw [lruGet_hit c k hc]
    obtain ⟨⟨hn1, hn2, hm1, hm2⟩, hlen, hcap⟩ := h
    have hperm := (moveToFront_perm k c.evictList).map Prod.fst
    refine ⟨⟨hn1, ?_, ?_, ?_⟩, ?_, hcap⟩
    · exact (hperm.nodup_iff).mpr hn2
    · intro x hx; exact (hperm.mem_iff).mpr (hm1 x hx)
    · intro x hx; exact hm2 x ((hperm.mem_iff).mp hx)
    · have hl := (moveToFront_perm k c.evictList).length_eq
      show (moveToFront k c.evictList).length ≤ c.capacity
      rw [hl]; exact hlen
  · have hc2 : c.items.contains k = false := by simpa using hc
    rw [lruGet_miss c k hc2]
    exact h

/-- `lruPut` preserves the cache invariant. -/
theorem lruInv_put (c : LruCache) (k : Nat) (v : CacheEntry) (h : lruInv c) :
    lruInv (lruPut c k v) := by
  obtain ⟨⟨hn1, hn2, hm1, hm2⟩, hlen, hcap⟩ := h
  by_cases hc : c.items.contains k = true
  · rw [lruPut_existing c k v hc]
    obtain ⟨p, hp⟩ := find?_isSome_of_consistent c ⟨hn1, hn2, hm1, hm2⟩ k hc
    have hk := find?_key_beq hp
    have hperm0 := (cons_eraseP_perm _ c.evictList p hp).map Prod.fst
    rw [List.map_cons, hk] at hperm0
    refine ⟨⟨hn1, ?_, ?_, ?_⟩, ?_, hcap⟩
    · show ((k, v) :: c.evictList.eraseP (fun q => q.1 == k)).map Prod.fst |>.Nodup
      rw [List.map_cons]
      exact (hperm0.nodup_iff).mpr hn2
    · intro x hx
      show x ∈ ((k, v) :: c.evictList.eraseP (fun q => q.1 == k)).map Prod.fst
      rw [List.map_cons]
      exact (hperm0.mem_iff).mpr (hm1 x hx)
    · intro x hx
      rw [List.map_cons] at hx
      exact hm2 x ((hperm0.mem_iff).mp hx)
    · show ((k, v) :: c.evictList.eraseP (fun q => q.1 == k)).length ≤ c.capacity
      rw [List.length_cons, length_eraseP_of_find? hp]
      exact hlen
  · have hc2 : c.items.contains k = false := by simpa using hc
    have hki : k ∉ c.items := by simpa using hc2
    have hkk : k ∉ c.evictList.map Prod.fst := fun hx => hki (hm2 k hx)
    by_cases hl : c.evictList.length ≥ c.capacity
    · have hne : c.evictList ≠ [] := by
        have h0 : 0 < c.evictList.length := by omega
        exact List.length_pos.mp h0
      rw [lruPut_new_evict c k v hc2 hl, removeOldest_of_ne_nil c hne]
      have hsplit : c.evictList.dropLast ++ [c.evictList.getLast hne] = c.evictList :=
        List.dropLast_concat_getLast hne
      have hmapsplit : c.evictList.map Prod.fst =
          c.evictList.dropLast.map Prod.fst ++ [(c.evictList.getLast hne).1] := by
        conv_lhs => rw [← hsplit]
        rw [List.map_append]; rfl
      have hn2' := hn2
      rw [hmapsplit, List.nodup_append] at hn2'
      obtain ⟨hndl, _, hdisj⟩ := hn2'
      have hqnot : (c.evictList.getLast hne).1 ∉ c.evictList.dropLast.map Prod.fst := by
        intro hmem
        exact hdisj hmem (by simp)
      have hksub : k ∉ c.evictList.dropLast.map Prod.fst := by
        intro hmem
        exact hkk (((List.dropLast_sublist c.evictList).map Prod.fst).subset hmem)
      refine ⟨⟨?_, ?_, ?_, ?_⟩, ?_, hcap⟩
      · show (k :: (c.items.erase (c.evictList.getLast hne).1)).Nodup
        rw [List.nodup_cons]
        exact ⟨fun hx => hki (List.erase_subset _ _ hx), hn1.erase _⟩
      · show ((k, v) :: c.evictList.dropLast).map Prod.fst |>.Nodup
        rw [List.map_cons, List.nodup_cons]
        exact ⟨hksub, hndl⟩
      · intro x hx
        show x ∈ ((k, v) :: c.evictList.dropLast).map Prod.fst
        rw [List.map_cons, List.mem_cons]
        rcases List.mem_cons.mp hx with rfl | hx2
        · exact Or.inl rfl
        · right
          have hx3 := (hn1.mem_erase_iff.mp hx2)
          have hx4 : x ∈ c.evictList.map Prod.fst := hm1 x hx3.2
          rw [hmapsplit, List.mem_append, List.mem_singleton] at hx4
          rcases hx4 with hx5 | hx5
          · exact hx5
          · exact absurd hx5 hx3.1
      · intro x hx
        rw [List.map_cons, List.mem_cons] at hx
        show x ∈ k :: (c.items.erase (c.evictList.getLast hne).1)
        rw [List.mem_cons]
        rcases hx with rfl | hx2
        · exact Or.inl rfl
        · right
          rw [hn1.mem_erase_iff]
          refine ⟨fun heq => hqnot (heq ▸ hx2), ?_⟩
          apply hm2
          rw [hmapsplit, List.mem_append]
          exact Or.inl hx2
      · show ((k, v) :: c.evictList.dropLast).length ≤ c.capacity
        rw [List.length_cons, List.length_dropLast]
        omega
    · rw [lruPut_new_room c k v hc2 hl]
      refine ⟨⟨?_, ?_, ?_, ?_⟩, ?_, hcap⟩
      · exact List.nodup_cons.mpr ⟨hki, hn1⟩
      · show ((k, v) :: c.evictList).map Prod.fst |>.Nodup
        rw [List.map_cons, List.nodup_cons]
        exact ⟨hkk, hn2⟩
      · intro x hx
        show x ∈ ((k, v) :: c.evictList).map Prod.fst
        rw [List.map_cons, List.mem_cons]
        rcases List.mem_cons.mp hx with rfl | hx2
        · exact Or.inl rfl
        · exact Or.inr (hm1 x hx2)
      · intro x hx
        rw [List.map_cons, List.mem_cons] at hx
        rw [List.mem_cons]
        rcases hx with rfl | hx2
        · exact Or.inl rfl
        · exact Or.inr (hm2 x hx2)
      · show ((k, v) :: c.evictList).length ≤ c.capacity
        rw [List.length_cons]
        omega

/-- `lruClear` preserves the cache invariant. -/
theorem lruInv_clear (c : LruCache) (h : lruInv c) : lruInv (lruClear c) := by
  refine ⟨⟨List.nodup_nil, List.nodup_nil, ?_, ?_⟩, ?_, h.2.2⟩
  · intro x hx; simp [lruClear] at hx
  · intro x hx; simp [lruClear] at hx
  · show ([] : List (Nat × CacheEntry)).length ≤ c.capacity
    simp

theorem lruInv_applyOp (c : LruCache) (op : CacheOp) (h : lruInv c) :
    lruInv (applyOp c op) := by
  cases op with
  | get k => exact lruInv_get c k h
  | put k v => exact lruInv_put c k v h
  | clearAll => exact lruInv_clear c h

theorem applyOp_capacity (c : LruCache) (op : CacheOp) :
    (applyOp c op).capacity = c.capacity := by
  cases op with
  | get k =>
    by_cases hc : c.items.contains k = true
    · rw [show applyOp c (.get k) = (lruGet c k).1 from rfl, lruGet_hit c k hc]
    · have hc2 : c.items.contains k = false := by simpa using hc
      rw [show applyOp c (.get k) = (lruGet c k).1 from rfl, lruGet_miss c k hc2]
  | put k v =>
    show (lruPut c k v).capacity = c.capacity
    by_cases hc : c.items.contains k = true
    · rw [lruPut_existing c k v hc]
    · have hc2 : c.items.contains k = false := by simpa using hc
      by_cases hl : c.evictList.length ≥ c.capacity
      · rw [lruPut_new_evict c k v hc2 hl]
        exact (removeOldest_frame c).1
      · rw [lruPut_new_room c k v hc2 hl]
  | clearAll => rfl

theorem lruInv_applyOps :
    ∀ (ops : List CacheOp) (c : LruCache), lruInv c → lruInv (applyOps c ops) := by
  intro ops
  induction ops with
  | nil => intro c h; exact h
  | cons op rest ih =>
    intro c h
    have : applyOps c (op :: rest) = applyOps (applyOp c op) rest := rfl
    rw [this]
    exact ih _ (lruInv_applyOp c op h)

theorem applyOps_capacity :
    ∀ (ops : List CacheOp) (c : LruCache), (applyOps c ops).capacity = c.capacity := by
  intro ops
  induction ops with
  | nil => intro c; rfl
  | cons op rest ih =>
    intro c
    have : applyOps c (op :: rest) = applyOps (applyOp c op) rest := rfl
    rw [this, ih, applyOp_capacity]

theorem newLRUCache_inv (cap : Nat) (h : 1 ≤ cap) : lruInv (newLRUCache cap) := by
  refine ⟨⟨List.nodup_nil, List.nodup_nil, ?_, ?_⟩, by simp [newLRUCache], h⟩
  · intro x hx; simp [newLRUCache] at hx
  · intro x hx; simp [newLRUCache] at hx

/-! ## C6: LRU put/evict semantics -/

/-- C6: on a consistent cache, `put` of an existing key updates its value and
promotes it to most-recently-used (the updated node becomes the head of the
recency list) without growing the cache and without touching the key map;
`put` of a new key at capacity first evicts exactly the least-recently-used
entry (the recency list's tail), leaving the cache at capacity; and concretely,
with capacity 2, after `put A; put B; put C` key A is evicted, so `get A`
misses while `get B` and `get C` hit. -/
theorem c6_lru_put_update_and_evict :
    (∀ (c : LruCache) (k : Nat) (v : CacheEntry), lruConsistent c →
      (c.items.contains k = true →
        lruPut c k v =
          ⟨c.capacity, c.items, (k, v) :: c.evictList.eraseP (fun p => p.1 == k),
           c.hits, c.misses⟩ ∧
        (lruPut c k v).evictList.length = c.evictList.length ∧
        (lruPut c k v).items = c.items) ∧
      (c.items.contains k = false → c.evictList.length = c.capacity →
       1 ≤ c.capacity →
        ∃ hne : c.evictList ≠ [],
          lruPut c k v =
            ⟨c.capacity, k :: c.items.erase (c.evictList.getLast hne).1,
             (k, v) :: c.evictList.dropLast, c.hits, c.misses⟩ ∧
          (lruPut c k v).evictList.length = c.capacity)) ∧
    ((lruGet cDemo 1).2 = none ∧
     (lruGet (lruGet cDemo 1).1 2).2 = some eB ∧
     (lruGet (lruGet (lruGet cDemo 1).1 2).1 3).2 = some eC) := by
  constructor
  · intro c k v hcons
    constructor
    · intro h
      have heq := lruPut_existing c k v h
      obtain ⟨p, hp⟩ := find?_isSome_of_consistent c hcons k h
      have hlen := length_eraseP_of_find? hp
      refine ⟨heq, ?_, ?_⟩
      · rw [heq]
        show ((k, v) :: c.evictList.eraseP (fun q => q.1 == k)).length =
          c.evictList.length
        rw [List.length_cons]
        exact hlen
      · rw [heq]
    · intro h hlenc hcap
      have hne : c.evictList ≠ [] := by
        intro hnil
        rw [hnil] at hlenc
        simp at hlenc
        omega
      have hge : c.evictList.length ≥ c.capacity := by omega
      have heq := lruPut_new_evict c k v h hge
      have hro := removeOldest_of_ne_nil c hne
      refine ⟨hne, ?_, ?_⟩
      · rw [heq, hro]
      · rw [heq, hro]
        show ((k, v) :: c.evictList.dropLast).length = c.capacity
        rw [List.length_cons, List.length_dropLast]
        omega
  · exact ⟨by decide, by decide, by decide⟩

/-- Witness for C6: the capacity-2 demo cache after inserting keys 3, 2
(consistent, with key 2 present): put of key 2 updates in place. -/
theorem c6_witness :
    (lruConsistent cDemo ∧ cDemo.items.contains 2 = true) ∧
    (lruPut cDemo 2 eA =
      ⟨cDemo.capacity, cDemo.items,
       (2, eA) :: cDemo.evictList.eraseP (fun p => p.1 == 2),
       cDemo.hits, cDemo.misses⟩ ∧
     (lruPut cDemo 2 eA).evictList.length = cDemo.evictList.length ∧
     (lruPut cDemo 2 eA).items = cDemo.items) :=
  ⟨⟨by decide, by decide⟩,
   (c6_lru_put_update_and_evict.1 cDemo 2 eA (by decide)).1 (by decide)⟩

/-! ## C10: the cache invariant over arbitrary operation sequences -/

/-- C10: for every cache constructed with capacity at least 1, after any
finite sequence of `get`, `put` and `clear` operations the cache holds at most
`capacity` entries, and the key map and the recency list contain exactly the
same set of keys. -/
theorem c10_lru_invariant (cap : Nat) (ops : List CacheOp) (h : 1 ≤ cap) :
    (applyOps (newLRUCache cap) ops).evictList.length ≤ cap ∧
    (∀ k, k ∈ (applyOps (newLRUCache cap) ops).items ↔
      k ∈ (applyOps (newLRUCache cap) ops).evictList.map Prod.fst) := by
  have hinv := lruInv_applyOps ops (newLRUCache cap) (newLRUCache_inv cap h)
  have hcap := applyOps_capacity ops (newLRUCache cap)
  obtain ⟨⟨_, _, hm1, hm2⟩, hlen, _⟩ := hinv
  constructor
  · have hcap2 : (newLRUCache cap).capacity = cap := rfl
    omega
  · intro k
    exact ⟨hm1 k, hm2 k⟩

/-- Witness for C10 at capacity 2 and a small mixed operation sequence. -/
theorem c10_witness :
    1 ≤ 2 ∧
    ((applyOps (newLRUCache 2)
        [CacheOp.put 1 eA, CacheOp.put 2 eB, CacheOp.get 1, CacheOp.put 3 eC,
         CacheOp.clearAll, CacheOp.put 5 eA]).evictList.length ≤ 2 ∧
     (∀ k, k ∈ (applyOps (newLRUCache 2)
        [CacheOp.put 1 eA, CacheOp.put 2 eB, CacheOp.get 1, CacheOp.put 3 eC,
         CacheOp.clearAll, CacheOp.put 5 eA]).items ↔
       k ∈ (applyOps (newLRUCache 2)
        [CacheOp.put 1 eA, CacheOp.put 2 eB, CacheOp.get 1, CacheOp.put 3 eC,
         CacheOp.clearAll, CacheOp.put 5 eA]).evictList.map Prod.fst)) :=
  ⟨by decide,
   c10_lru_invariant 2
     [CacheOp.put 1 eA, CacheOp.put 2 eB, CacheOp.get 1, CacheOp.put 3 eC,
      CacheOp.clearAll, CacheOp.put 5 eA] (by decide)⟩

/-! ## Helper lemmas: lookup transparency -/

theorem lruPut_counters (c : LruCache) (k : Nat) (v : CacheEntry) :
    (lruPut c k v).hits = c.hits ∧ (lruPut c k v).misses = c.misses := by
  by_cases hc : c.items.contains k = true
  · rw [lruPut_existing c k v hc]; exact ⟨rfl, rfl⟩
  · have hc2 : c.items.contains k = false := by simpa using hc
    by_cases hl : c.evictList.length ≥ c.capacity
    · rw [lruPut_new_evict c k v hc2 hl]
      exact ⟨(removeOldest_frame c).2.1, (removeOldest_frame c).2.2⟩
    · rw [lruPut_new_room c k v hc2 hl]; exact ⟨rfl, rfl⟩

theorem lruPut_contains_self (c : LruCache) (k : Nat) (v : CacheEntry) :
    (lruPut c k v).items.contains k = true := by
  by_cases hc : c.items.contains k = true
  · rw [lruPut_existing c k v hc]; exact hc
  · have hc2 : c.items.contains k = false := by simpa using hc
    by_cases hl : c.evictList.length ≥ c.capacity
    · rw [lruPut_new_evict c k v hc2 hl]
      show (k :: (removeOldest c).items).contains k = true
      simp
    · rw [lruPut_new_room c k v hc2 hl]
      show (k :: c.items).contains k = true
      simp

theorem lruPut_find_self (c : LruCache) (k : Nat) (v : CacheEntry) :
    (lruPut c k v).evictList.find? (fun p => p.1 == k) = some (k, v) := by
  have hself : ((k, v).1 == k) = true := by simp
  by_cases hc : c.items.contains k = true
  · rw [lruPut_existing c k v hc]
    exact List.find?_cons_of_pos _ hself
  · have hc2 : c.items.contains k = false := by simpa using hc
    by_cases hl : c.evictList.length ≥ c.capacity
    · rw [lruPut_new_evict c k v hc2 hl]
      exact List.find?_cons_of_pos _ hself
    · rw [lruPut_new_room c k v hc2 hl]
      exact List.find?_cons_of_pos _ hself

theorem findCountryForIP_eq_hit (st : RangeState) (ip : Nat)
    (hc : st.cache.items.contains ip = true) :
    findCountryForIP st ip =
      cacheHitResult st
        ⟨st.cache.capacity, st.cache.items, moveToFront ip st.cache.evictList,
         st.cache.hits + 1, st.cache.misses⟩
        (((st.cache.evictList.find? (fun p => p.1 == ip)).map Prod.snd).getD default) := by
  unfold findCountryForIP
  rw [lruGet_hit st.cache ip hc]

theorem findCountryForIP_eq_miss (st : RangeState) (ip : Nat)
    (hc : st.cache.items.contains ip = false) :
    findCountryForIP st ip =
      cacheMissSearch st
        ⟨st.cache.capacity, st.cache.items, st.cache.evictList,
         st.cache.hits, st.cache.misses + 1⟩ ip := by
  unfold findCountryForIP
  rw [lruGet_miss st.cache ip hc]

theorem cacheMissSearch_eq_some (st : RangeState) (c1 : LruCache) (ip : Nat)
    (cty code : List Char) (hp : rangeLookupPure st.ranges ip = some (cty, code)) :
    cacheMissSearch st c1 ip =
      ({ st with cache := lruPut c1 ip ⟨cty, code, ip, true⟩ }, .found cty code) := by
  unfold cacheMissSearch
  rw [hp]

theorem cacheMissSearch_eq_none (st : RangeState) (c1 : LruCache) (ip : Nat)
    (hp : rangeLookupPure st.ranges ip = none) :
    cacheMissSearch st c1 ip =
      ({ st with cache := lruPut c1 ip ⟨[], [], ip, false⟩ }, .missFresh) := by
  unfold cacheMissSearch
  rw [hp]

/-- `findCountryForIP` touches only the cache. -/
theorem findCountryForIP_frame (st : RangeState) (ip : Nat) :
    (findCountryForIP st ip).1.ranges = st.ranges ∧
    (findCountryForIP st ip).1.initDone = st.initDone ∧
    (findCountryForIP st ip).1.initErr = st.initErr ∧
    (findCountryForIP st ip).1.config = st.config := by
  by_cases hc : st.cache.items.contains ip = true
  · rw [findCountryForIP_eq_hit st ip hc]
    exact ⟨rfl, rfl, rfl, rfl⟩
  · have hc2 : st.cache.items.contains ip = false := by simpa using hc
    rw [findCountryForIP_eq_miss st ip hc2]
    cases hp : rangeLookupPure st.ranges ip with
    | none => rw [cacheMissSearch_eq_none st _ ip hp]; exact ⟨rfl, rfl, rfl, rfl⟩
    | some pr =>
      obtain ⟨cty, code⟩ := pr
      rw [cacheMissSearch_eq_some st _ ip cty code hp]
      exact ⟨rfl, rfl, rfl, rfl⟩

/-- A lookup immediately following a `put` of the same key is served from the
cache: the stored entry decides the result and the hit counter increments. -/
theorem find_after_put (st : RangeState) (c1 : LruCache) (ip : Nat) (v : CacheEntry) :
    (findCountryForIP { st with cache := lruPut c1 ip v } ip).2 =
      (if v.found then .found v.country v.code else .missCached) ∧
    (findCountryForIP { st with cache := lruPut c1 ip v } ip).1.cache.hits =
      (lruPut c1 ip v).hits + 1 ∧
    (findCountryForIP { st with cache := lruPut c1 ip v } ip).1.cache.misses =
      (lruPut c1 ip v).misses := by
  have hc : ({ st with cache := lruPut c1 ip v } : RangeState).cache.items.contains ip
      = true := lruPut_contains_self c1 ip v
  rw [findCountryForIP_eq_hit _ ip hc]
  have hf : ({ st with cache := lruPut c1 ip v } : RangeState).cache.evictList.find?
      (fun p => p.1 == ip) = some (ip, v) := lruPut_find_self c1 ip v
  rw [hf]
  exact ⟨rfl, rfl, rfl⟩

/-- Looking the same IP up twice yields the same outcome (transparency at the
`findCountryForIP` level). -/
theorem findCountryForIP_transparent (st : RangeState) (ip : Nat) :
    toOutcome (findCountryForIP (findCountryForIP st ip).1 ip).2 =
      toOutcome (findCountryForIP st ip).2 := by
  by_cases hc : st.cache.items.contains ip = true
  · rw [findCountryForIP_eq_hit st ip hc]
    have hc1 : (cacheHitResult st
        ⟨st.cache.capacity, st.cache.items, moveToFront ip st.cache.evictList,
         st.cache.hits + 1, st.cache.misses⟩
        (((st.cache.evictList.find? (fun p => p.1 == ip)).map Prod.snd).getD default)).1.cache.items.contains ip
        = true := hc
    rw [findCountryForIP_eq_hit _ ip hc1]
    have hfind : (cacheHitResult st
        ⟨st.cache.capacity, st.cache.items, moveToFront ip st.cache.evictList,
         st.cache.hits + 1, st.cache.misses⟩
        (((st.cache.evictList.find? (fun p => p.1 == ip)).map Prod.snd).getD default)).1.cache.evictList.find?
          (fun p => p.1 == ip)
        = st.cache.evictList.find? (fun p => p.1 == ip) := moveToFront_find? ip _
    rw [hfind]
    rfl
  · have hc2 : st.cache.items.contains ip = false := by simpa using hc
    rw [findCountryForIP_eq_miss st ip hc2]
    cases hp : rangeLookupPure st.ranges ip with
    | some pr =>
      obtain ⟨cty, code⟩ := pr
      rw [cacheMissSearch_eq_some st _ ip cty code hp]
      rw [(find_after_put st _ ip ⟨cty, code, ip, true⟩).1]
      rfl
    | none =>
      rw [cacheMissSearch_eq_none st _ ip hp]
      rw [(find_after_put st _ ip ⟨[], [], ip, false⟩).1]
      rfl

theorem lookupToCountry_fst (fr : RangeState × LookupRes) :
    (lookupToCountry fr).1 = fr.1 := by
  obtain ⟨a, r⟩ := fr
  cases r <;> rfl

theorem norm_toCountry (fr1 fr2 : RangeState × LookupRes)
    (h : toOutcome fr1.2 = toOutcome fr2.2) :
    normNotFound (lookupToCountry fr1).2 = normNotFound (lookupToCountry fr2).2 := by
  obtain ⟨a1, r1⟩ := fr1
  obtain ⟨a2, r2⟩ := fr2
  cases r1 with
  | found c1 k1 =>
    cases r2 with
    | found c2 k2 =>
      simp [toOutcome] at h
      simp [lookupToCountry, normNotFound, h.1]
    | missFresh => simp [toOutcome] at h
    | missCached => simp [toOutcome] at h
  | missFresh =>
    cases r2 with
    | found c2 k2 => simp [toOutcome] at h
    | missFresh => rfl
    | missCached => rfl
  | missCached =>
    cases r2 with
    | found c2 k2 => simp [toOutcome] at h
    | missFresh => rfl
    | missCached => rfl

/-! ## C7: cache transparency and negative caching -/

/-- C7: repeating a lookup yields the same outcome (same code, or the same
not-found outcome — the code's two not-found error texts collapsed by
`toOutcome`/`normNotFound`); the first lookup of an unmatched, uncached IP
returns not-found, increments the miss counter and records a negative cache
entry, and the second lookup is served from the cache: it returns the cached
miss, incrementing the hit counter instead of re-running the search; at the
`GetCountry` level the same transparency holds for every initialized engine. -/
theorem c7_cache_transparency :
    (∀ (st : RangeState) (ip : Nat),
      toOutcome (findCountryForIP (findCountryForIP st ip).1 ip).2 =
        toOutcome (findCountryForIP st ip).2) ∧
    (∀ (st : RangeState) (ip : Nat),
      st.cache.items.contains ip = false →
      rangeLookupPure st.ranges ip = none →
      (findCountryForIP st ip).2 = .missFresh ∧
      (findCountryForIP st ip).1.cache.misses = st.cache.misses + 1 ∧
      (findCountryForIP st ip).1.cache.hits = st.cache.hits ∧
      (findCountryForIP st ip).1.cache.evictList.find? (fun p => p.1 == ip) =
        some (ip, ⟨[], [], ip, false⟩) ∧
      (findCountryForIP (findCountryForIP st ip).1 ip).2 = .missCached ∧
      (findCountryForIP (findCountryForIP st ip).1 ip).1.cache.hits =
        (findCountryForIP st ip).1.cache.hits + 1 ∧
      (findCountryForIP (findCountryForIP st ip).1 ip).1.cache.misses =
        (findCountryForIP st ip).1.cache.misses) ∧
    (∀ (env : LoadEnv) (st : RangeState) (s : List Char),
      st.initDone = true →
      normNotFound (getCountryWC env (getCountryWC env st s).1 s).2 =
        normNotFound (getCountryWC env st s).2) := by
  refine ⟨findCountryForIP_transparent, ?_, ?_⟩
  · intro st ip hc2 hp
    have heq : findCountryForIP st ip =
        ({ st with cache := (lruPut
            ⟨st.cache.capacity, st.cache.items, st.cache.evictList,
             st.cache.hits, st.cache.misses + 1⟩ ip ⟨[], [], ip, false⟩) },
          .missFresh) := by
      rw [findCountryForIP_eq_miss st ip hc2, cacheMissSearch_eq_none st _ ip hp]
    refine ⟨by rw [heq], ?_, ?_, ?_, ?_, ?_, ?_⟩
    · rw [heq]
      show (lruPut ⟨st.cache.capacity, st.cache.items, st.cache.evictList,
        st.cache.hits, st.cache.misses + 1⟩ ip ⟨[], [], ip, false⟩).misses =
        st.cache.misses + 1
      rw [(lruPut_counters _ ip _).2]
    · rw [heq]
      show (lruPut ⟨st.cache.capacity, st.cache.items, st.cache.evictList,
        st.cache.hits, st.cache.misses + 1⟩ ip ⟨[], [], ip, false⟩).hits =
        st.cache.hits
      rw [(lruPut_counters _ ip _).1]
    · rw [heq]
      exact lruPut_find_self _ ip _
    · rw [heq]
      rw [(find_after_put st _ ip ⟨[], [], ip, false⟩).1]
      rfl
    · rw [heq]
      rw [(find_after_put st _ ip ⟨[], [], ip, false⟩).2.1]
    · rw [heq]
      rw [(find_after_put st _ ip ⟨[], [], ip, false⟩).2.2]
  · intro env st s hinit
    have hinitEq : initRangeWC env st = (st, st.initErr) := by
      unfold initRangeWC; rw [if_pos hinit]
    cases he : st.initErr with
    | some e =>
      have h1 : getCountryWC env st s = (st, .error (.initFailed e)) := by
        unfold getCountryWC; rw [hinitEq, he]
      rw [h1]
      rw [show ((st, Except.error (LookupErr.initFailed e)) :
        RangeState × Except LookupErr (List Char)).1 = st from rfl]
      rw [h1]
    | none =>
      have h1 : getCountryWC env st s = getCountryAfterInit st s := by
        unfold getCountryWC; rw [hinitEq, he]
      rw [h1]
      cases hip : parseIPChars s with
      | none =>
        have h2 : getCountryAfterInit st s = (st, .error .invalidIP) := by
          unfold getCountryAfterInit; rw [hip]
        rw [h2]
        rw [show ((st, Except.error LookupErr.invalidIP) :
          RangeState × Except LookupErr (List Char)).1 = st from rfl]
        rw [h1, h2]
      | some ip =>
        have h2 : getCountryAfterInit st s =
            lookupToCountry (findCountryForIP st ip) := by
          unfold getCountryAfterInit; rw [hip]
        rw [h2, lookupToCountry_fst]
        have hd2 : (findCountryForIP st ip).1.initDone = true := by
          rw [(findCountryForIP_frame st ip).2.1]; exact hinit
        have he2 : (findCountryForIP st ip).1.initErr = none := by
          rw [(findCountryForIP_frame st ip).2.2.1]; exact he
        have hinitEq2 : initRangeWC env (findCountryForIP st ip).1 =
            ((findCountryForIP st ip).1, (findCountryForIP st ip).1.initErr) := by
          unfold initRangeWC; rw [if_pos hd2]
        have h1m : getCountryWC env (findCountryForIP st ip).1 s =
            getCountryAfterInit (findCountryForIP st ip).1 s := by
          unfold getCountryWC; rw [hinitEq2, he2]
        have h2m : getCountryAfterInit (findCountryForIP st ip).1 s =
            lookupToCountry (findCountryForIP (findCountryForIP st ip).1 ip) := by
          unfold getCountryAfterInit; rw [hip]
        rw [h1m, h2m]
        exact norm_toCountry _ _ (findCountryForIP_transparent st ip)

/-- Witness for C7 at the loaded §8 engine and the unmatched IP `9.9.9.9`. -/
theorem c7_witness :
    (stLoaded.cache.items.contains 151587081 = false ∧
     rangeLookupPure stLoaded.ranges 151587081 = none ∧
     ((findCountryForIP stLoaded 151587081).2 = .missFresh ∧
      (findCountryForIP stLoaded 151587081).1.cache.misses =
        stLoaded.cache.misses + 1 ∧
      (findCountryForIP stLoaded 151587081).1.cache.hits = stLoaded.cache.hits ∧
      (findCountryForIP stLoaded 151587081).1.cache.evictList.find?
          (fun p => p.1 == 151587081) = some (151587081, ⟨[], [], 151587081, false⟩) ∧
      (findCountryForIP (findCountryForIP stLoaded 151587081).1 151587081).2 =
        .missCached ∧
      (findCountryForIP (findCountryForIP stLoaded 151587081).1 151587081).1.cache.hits =
        (findCountryForIP stLoaded 151587081).1.cache.hits + 1 ∧
      (findCountryForIP (findCountryForIP stLoaded 151587081).1 151587081).1.cache.misses =
        (findCountryForIP stLoaded 151587081).1.cache.misses)) ∧
    (stLoaded.initDone = true ∧
     normNotFound (getCountryWC envGood (getCountryWC envGood stLoaded "9.9.9.9".toList).1 "9.9.9.9".toList).2 =
       normNotFound (getCountryWC envGood stLoaded "9.9.9.9".toList).2) :=
  ⟨⟨by decide, by decide,
    c7_cache_transparency.2.1 stLoaded 151587081 (by decide) (by decide)⟩,
   ⟨by decide,
    c7_cache_transparency.2.2 envGood stLoaded "9.9.9.9".toList (by decide)⟩⟩

/-! ## Helper lemmas: the standalone validator -/

theorem validateR_none_iff (r : IPRange) :
    r.validateR = none ↔ r.startIP ≤ r.endIP ∧ r.code ≠ [] := by
  unfold IPRange.validateR
  by_cases h1 : r.startIP > r.endIP
  · rw [if_pos h1]
    constructor
    · intro h; exact (Option.some_ne_none _ h).elim
    · rintro ⟨h2, -⟩; omega
  · rw [if_neg h1]
    by_cases h2 : r.code = []
    · rw [if_pos h2]
      constructor
      · intro h; exact (Option.some_ne_none _ h).elim
      · rintro ⟨-, h3⟩; exact absurd h2 h3
    · rw [if_neg h2]
      constructor
      · intro _; exact ⟨by omega, h2⟩
      · intro _; rfl

theorem validateHead_eq_some (first : IPRange) (rest : List IPRange) (e : LineErr)
    (h : first.validateR = some e) :
    validateHead first rest = some (.invalidAtIndex 0 e) := by
  unfold validateHead; rw [h]

theorem validateHead_eq_none (first : IPRange) (rest : List IPRange)
    (h : first.validateR = none) :
    validateHead first rest = validateIPRangesLoop first rest 1 := by
  unfold validateHead; rw [h]

theorem loop_cons_eq_some (prev cur : IPRange) (rest : List IPRange) (i : Nat)
    (e : LineErr) (hv : cur.validateR = some e) :
    validateIPRangesLoop prev (cur :: rest) i = some (.invalidAtIndex i e) := by
  unfold validateIPRangesLoop; rw [hv]

theorem loop_cons_eq_none (prev cur : IPRange) (rest : List IPRange) (i : Nat)
    (hv : cur.validateR = none) :
    validateIPRangesLoop prev (cur :: rest) i =
      (if prev.endIP ≥ cur.startIP then
        some (.overlap prev.startIP prev.endIP cur.startIP cur.endIP)
      else validateIPRangesLoop cur rest (i + 1)) := by
  conv_lhs => unfold validateIPRangesLoop
  rw [hv]

theorem validateIPRangesLoop_none_iff :
    ∀ (rest : List IPRange) (prev : IPRange) (i : Nat),
      validateIPRangesLoop prev rest i = none ↔
        ((∀ r ∈ rest, r.validateR = none) ∧
         List.Chain' (fun a b => a.endIP < b.startIP) (prev :: rest)) := by
  intro rest
  induction rest with
  | nil => intro prev i; simp [validateIPRangesLoop]
  | cons cur rest ih =>
    intro prev i
    cases hv : cur.validateR with
    | some e =>
      rw [loop_cons_eq_some prev cur rest i e hv]
      constructor
      · intro h; exact (Option.some_ne_none _ h).elim
      · rintro ⟨hall, -⟩
        have h1 := hall cur (by simp)
        rw [hv] at h1
        exact (Option.some_ne_none _ h1).elim
    | none =>
      rw [loop_cons_eq_none prev cur rest i hv]
      by_cases ho : prev.endIP ≥ cur.startIP
      · rw [if_pos ho]
        constructor
        · intro h; exact (Option.some_ne_none _ h).elim
        · rintro ⟨-, hch⟩
          rw [List.chain'_cons] at hch
          exact absurd hch.1 (by omega)
      · rw [if_neg ho]
        rw [ih cur (i + 1)]
        constructor
        · rintro ⟨hall, hch⟩
          exact ⟨List.forall_mem_cons.mpr ⟨hv, hall⟩,
                 List.chain'_cons.mpr ⟨by omega, hch⟩⟩
        · rintro ⟨hall, hch⟩
          exact ⟨(List.forall_mem_cons.mp hall).2, (List.chain'_cons.mp hch).2⟩

/-- When the adjacent-pair walk rejects, the returned error is the first
violation in scan order (`Validate` of index `i`, then overlap of the pair
`(i-1, i)`): every check the loop performs before the reported one passes. -/
theorem loop_some_first_violation :
    ∀ (rest : List IPRange) (prev : IPRange) (i : Nat) (err : VError),
      validateIPRangesLoop prev rest i = some err →
        (∃ k, k < rest.length ∧ ∃ e,
            err = .invalidAtIndex (i + k) e ∧
            (rest.getD k default).validateR = some e ∧
            (∀ j, j < k → (rest.getD j default).validateR = none) ∧
            List.Chain' (fun a b => a.endIP < b.startIP) (prev :: rest.take k)) ∨
        (∃ k, k < rest.length ∧
            err = .overlap ((prev :: rest).getD k default).startIP
                           ((prev :: rest).getD k default).endIP
                           (rest.getD k default).startIP
                           (rest.getD k default).endIP ∧
            (rest.getD k default).startIP ≤ ((prev :: rest).getD k default).endIP ∧
            (∀ j, j ≤ k → (rest.getD j default).validateR = none) ∧
            List.Chain' (fun a b => a.endIP < b.startIP) (prev :: rest.take k)) := by
  intro rest
  induction rest with
  | nil =>
    intro prev i err h
    exact Option.noConfusion h
  | cons cur rest ih =>
    intro prev i err h
    cases hv : cur.validateR with
    | some e =>
      rw [loop_cons_eq_some prev cur rest i e hv] at h
      have herr : err = .invalidAtIndex i e := (Option.some.inj h).symm
      left
      refine ⟨0, by simp, e, ?_, ?_, ?_, ?_⟩
      · rw [herr, Nat.add_zero]
      · simp only [List.getD_cons_zero]; exact hv
      · intro j hj; omega
      · simp
    | none =>
      rw [loop_cons_eq_none prev cur rest i hv] at h
      by_cases ho : prev.endIP ≥ cur.startIP
      · rw [if_pos ho] at h
        have herr : err = .overlap prev.startIP prev.endIP cur.startIP cur.endIP :=
          (Option.some.inj h).symm
        right
        refine ⟨0, by simp, ?_, ?_, ?_, ?_⟩
        · rw [herr]; simp only [List.getD_cons_zero]
        · simp only [List.getD_cons_zero]; omega
        · intro j hj
          have hj0 : j = 0 := by omega
          subst hj0
          simp only [List.getD_cons_zero]; exact hv
        · simp
      · rw [if_neg ho] at h
        rcases ih cur (i + 1) err h with
          ⟨k, hk, e, herr, hrv, hprev, hch⟩ | ⟨k, hk, herr, hov, hprev, hch⟩
        · left
          refine ⟨k + 1, by simpa using Nat.succ_lt_succ hk, e, ?_, ?_, ?_, ?_⟩
          · rw [herr, (by omega : i + 1 + k = i + (k + 1))]
          · simp only [List.getD_cons_succ]; exact hrv
          · intro j hj
            cases j with
            | zero => simp only [List.getD_cons_zero]; exact hv
            | succ j2 =>
              simp only [List.getD_cons_succ]
              exact hprev j2 (by omega)
          · rw [List.take_succ_cons]
            exact List.chain'_cons.mpr ⟨by omega, hch⟩
        · right
          refine ⟨k + 1, by simpa using Nat.succ_lt_succ hk, ?_, ?_, ?_, ?_⟩
          · rw [herr]; simp only [List.getD_cons_succ]
          · simp only [List.getD_cons_succ]; exact hov
          · intro j hj
            cases j with
            | zero => simp only [List.getD_cons_zero]; exact hv
            | succ j2 =>
              simp only [List.getD_cons_succ]
              exact hprev j2 (by omega)
          · rw [List.take_succ_cons]
            exact List.chain'_cons.mpr ⟨by omega, hch⟩

/-! ## C8: the standalone validator accepts exactly the well-formed inputs -/

/-- C8: for every sequence of ranges already sorted ascending by start,
`ValidateIPRanges` accepts it if and only if every individual range satisfies
`start ≤ end` with a non-empty code and every adjacent pair satisfies
`ranges[i].end < ranges[i+1].start`; and on rejection the returned error is
the first violation in scan order (`Validate` of range 0, then for each `i`
`Validate` of range `i` followed by the overlap check of the pair `(i-1,i)`),
identifying the offending range(s) by their bounds: an overlap error carries
both ranges' start and end, an invalid-range error carries the sorted index
and, for a reversed range, its bounds — with every check performed earlier in
the scan passing. -/
theorem c8_validator_accepts_iff (l : List IPRange)
    (hsort : List.Pairwise (fun a b => a.startIP ≤ b.startIP) l) :
    (validateIPRanges l = none ↔
      ((∀ r ∈ l, r.startIP ≤ r.endIP ∧ r.code ≠ []) ∧
       List.Chain' (fun a b => a.endIP < b.startIP) l)) ∧
    (∀ err, validateIPRanges l = some err →
      (∃ i, i < l.length ∧ ∃ e,
          err = .invalidAtIndex i e ∧
          (l.getD i default).validateR = some e ∧
          (∀ j, j < i → (l.getD j default).validateR = none) ∧
          List.Chain' (fun a b => a.endIP < b.startIP) (l.take i)) ∨
      (∃ i, i + 1 < l.length ∧
          err = .overlap (l.getD i default).startIP (l.getD i default).endIP
                         (l.getD (i + 1) default).startIP
                         (l.getD (i + 1) default).endIP ∧
          (l.getD (i + 1) default).startIP ≤ (l.getD i default).endIP ∧
          (∀ j, j ≤ i + 1 → (l.getD j default).validateR = none) ∧
          List.Chain' (fun a b => a.endIP < b.startIP) (l.take (i + 1)))) := by
  have hsorted : sortByStart l = l := List.Sorted.insertionSort_eq hsort
  refine ⟨?_, ?_⟩
  · cases l with
    | nil => simp [validateIPRanges]
    | cons first rest =>
      have hne : ¬(first :: rest).isEmpty = true := by simp
      have heq : validateIPRanges (first :: rest) =
          validateSorted (sortByStart (first :: rest)) := by
        unfold validateIPRanges; rw [if_neg hne]
      rw [heq, hsorted,
        show validateSorted (first :: rest) = validateHead first rest from rfl]
      cases hv : first.validateR with
      | some e =>
        rw [validateHead_eq_some first rest e hv]
        constructor
        · intro h; exact (Option.some_ne_none _ h).elim
        · rintro ⟨hall, -⟩
          have h1 := hall first (by simp)
          have h2 := (validateR_none_iff first).mpr h1
          rw [hv] at h2
          exact (Option.some_ne_none _ h2).elim
      | none =>
        rw [validateHead_eq_none first rest hv]
        rw [validateIPRangesLoop_none_iff rest first 1]
        have hfirst := (validateR_none_iff first).mp hv
        constructor
        · rintro ⟨hall, hch⟩
          refine ⟨?_, hch⟩
          intro r hr
          rcases List.mem_cons.mp hr with rfl | hr2
          · exact hfirst
          · exact (validateR_none_iff r).mp (hall r hr2)
        · rintro ⟨hall, hch⟩
          refine ⟨?_, hch⟩
          intro r hr
          exact (validateR_none_iff r).mpr (hall r (List.mem_cons.mpr (Or.inr hr)))
  · intro err herr
    cases l with
    | nil => exact Option.noConfusion herr
    | cons first rest =>
      have hne : ¬(first :: rest).isEmpty = true := by simp
      have heq : validateIPRanges (first :: rest) =
          validateSorted (sortByStart (first :: rest)) := by
        unfold validateIPRanges; rw [if_neg hne]
      rw [heq, hsorted,
        show validateSorted (first :: rest) = validateHead first rest from rfl]
        at herr
      cases hv : first.validateR with
      | some e =>
        rw [validateHead_eq_some first rest e hv] at herr
        have herr2 : err = .invalidAtIndex 0 e := (Option.some.inj herr).symm
        left
        refine ⟨0, by simp, e, herr2, ?_, ?_, ?_⟩
        · simp only [List.getD_cons_zero]; exact hv
        · intro j hj; omega
        · simp
      | none =>
        rw [validateHead_eq_none first rest hv] at herr
        rcases loop_some_first_violation rest first 1 err herr with
          ⟨k, hk, e, herr2, hrv, hprev, hch⟩ | ⟨k, hk, herr2, hov, hprev, hch⟩
        · left
          refine ⟨k + 1, by simpa using Nat.succ_lt_succ hk, e, ?_, ?_, ?_, ?_⟩
          · rw [herr2, (by omega : 1 + k = k + 1)]
          · simp only [List.getD_cons_succ]; exact hrv
          · intro j hj
            cases j with
            | zero => simp only [List.getD_cons_zero]; exact hv
            | succ j2 =>
              simp only [List.getD_cons_succ]
              exact hprev j2 (by omega)
          · rw [List.take_succ_cons]; exact hch
        · right
          refine ⟨k, by simpa using Nat.succ_lt_succ hk, ?_, ?_, ?_, ?_⟩
          · rw [herr2]; simp only [List.getD_cons_succ]
          · simp only [List.getD_cons_succ]; exact hov
          · intro j hj
            cases j with
            | zero => simp only [List.getD_cons_zero]; exact hv
            | succ j2 =>
              simp only [List.getD_cons_succ]
              exact hprev j2 (by omega)
          · rw [List.take_succ_cons]; exact hch

/-- Witness for C8: the acceptance iff at the §8 dataset (sorted, valid,
disjoint), and the rejection characterization at the overlapping pair
`[0,100]`,`[50,150]`, whose error carries both ranges' bounds. -/
theorem c8_witness :
    (List.Pairwise (fun a b => a.startIP ≤ b.startIP) exRanges ∧
     (validateIPRanges exRanges = none ↔
       ((∀ r ∈ exRanges, r.startIP ≤ r.endIP ∧ r.code ≠ []) ∧
        List.Chain' (fun a b => a.endIP < b.startIP) exRanges))) ∧
    ((∃ i, i < ovRanges.length ∧ ∃ e,
        VError.overlap 0 100 50 150 = .invalidAtIndex i e ∧
        (ovRanges.getD i default).validateR = some e ∧
        (∀ j, j < i → (ovRanges.getD j default).validateR = none) ∧
        List.Chain' (fun a b => a.endIP < b.startIP) (ovRanges.take i)) ∨
     (∃ i, i + 1 < ovRanges.length ∧
        VError.overlap 0 100 50 150 =
          .overlap (ovRanges.getD i default).startIP
                   (ovRanges.getD i default).endIP
                   (ovRanges.getD (i + 1) default).startIP
                   (ovRanges.getD (i + 1) default).endIP ∧
        (ovRanges.getD (i + 1) default).startIP ≤
          (ovRanges.getD i default).endIP ∧
        (∀ j, j ≤ i + 1 → (ovRanges.getD j default).validateR = none) ∧
        List.Chain' (fun a b => a.endIP < b.startIP) (ovRanges.take (i + 1)))) :=
  ⟨⟨by decide, (c8_validator_accepts_iff exRanges (by decide)).1⟩,
   (c8_validator_accepts_iff ovRanges (by decide)).2
     (VError.overlap 0 100 50 150) (by decide)⟩

/-! ## Helper lemmas: the Country field mirrors the Code field -/

theorem buildRange_mirror (s e : Nat) (cc : List Char) (r : IPRange)
    (h : buildRange s e cc = .ok r) : r.country = r.code := by
  unfold buildRange at h
  split at h
  · exact Except.noConfusion h
  · cases h
    rfl

theorem parseLineRange_mirror (cfg : Config) (line : List Char) (r : IPRange)
    (h : parseLineRange cfg line = .ok r) : r.country = r.code := by
  unfold parseLineRange at h
  split at h
  · split at h
    · exact Except.noConfusion h
    · split at h
      · exact Except.noConfusion h
      · exact buildRange_mirror _ _ _ r h
  · exact Except.noConfusion h

theorem parseLoopRange_mirror (cfg : Config) (cancelAt : Option Nat) :
    ∀ (lines : List (List Char)) (n : Nat) (acc : List IPRange)
      (errs : List ParseErr),
      (∀ r ∈ acc, r.country = r.code) →
      ∀ r ∈ (parseLoopRange cfg cancelAt lines n acc errs).1, r.country = r.code := by
  intro lines
  induction lines with
  | nil =>
    intro n acc errs hacc
    exact hacc
  | cons line rest ih =>
    intro n acc errs hacc
    unfold parseLoopRange
    by_cases hctx : ctxDoneAt cancelAt (n + 1) = true
    · rw [if_pos hctx]; exact hacc
    · rw [if_neg hctx]
      by_cases hskip : trimChars line = [] ∨ (cfg.skipHeader ∧ n + 1 = 1)
      · rw [if_pos hskip]; exact ih (n + 1) acc errs hacc
      · rw [if_neg hskip]
        split
        · exact ih (n + 1) acc _ hacc
        next r heq =>
          have hr := parseLineRange_mirror cfg (trimChars line) r heq
          have hacc2 : ∀ q ∈ acc ++ [r], q.country = q.code := by
            intro q hq
            rcases List.mem_append.mp hq with hq1 | hq2
            · exact hacc q hq1
            · rw [List.mem_singleton.mp hq2]; exact hr
          show ∀ q ∈ (if cfg.maxRanges > 0 ∧ ((acc ++ [r]).length : Int) ≥ cfg.maxRanges
              then (acc ++ [r], errs, LoopEnd.stopBroke)
              else parseLoopRange cfg cancelAt rest (n + 1) (acc ++ [r]) errs).1,
            q.country = q.code
          split
          · exact hacc2
          · exact ih (n + 1) (acc ++ [r]) errs hacc2

theorem parseReaderRange_mirror (cfg : Config) (env : LoadEnv)
    (rs : List IPRange) (es : List ParseErr)
    (h : parseReaderRange cfg env = .ok (rs, es)) :
    ∀ r ∈ rs, r.country = r.code := by
  unfold parseReaderRange at h
  have hall := parseLoopRange_mirror cfg env.cancelAt env.lines 0 [] []
    (by intro r hr; simp at hr)
  generalize hl : parseLoopRange cfg env.cancelAt env.lines 0 [] [] = res at h hall
  obtain ⟨rs0, es0, stop⟩ := res
  cases stop with
  | stopCancelled => exact Except.noConfusion h
  | stopBroke =>
    obtain ⟨rfl, rfl⟩ : rs0 = rs ∧ es0 = es := by simpa using h
    exact hall
  | stopEnd =>
    by_cases hs : env.scanFails = true
    · simp [hs] at h
    · obtain ⟨rfl, rfl⟩ : rs0 = rs ∧ es0 = es := by simpa [hs] using h
      exact hall

theorem parseFileRange_mirror (cfg : Config) (env : LoadEnv)
    (rs : List IPRange) (es : List ParseErr)
    (h : parseFileRange cfg env = .ok (rs, es)) :
    ∀ r ∈ rs, r.country = r.code := by
  unfold parseFileRange at h
  by_cases h1 : env.openFails = true
  · rw [if_pos h1] at h; exact Except.noConfusion h
  · rw [if_neg h1] at h
    by_cases h2 : env.statFails = true
    · rw [if_pos h2] at h; exact Except.noConfusion h
    · rw [if_neg h2] at h
      by_cases h3 : cfg.maxFileSize > 0 ∧ env.fileSize > cfg.maxFileSize
      · rw [if_pos h3] at h; exact Except.noConfusion h
      · rw [if_neg h3] at h
        exact parseReaderRange_mirror cfg env rs es h

theorem sortByStart_mirror (rs : List IPRange)
    (h : ∀ r ∈ rs, r.country = r.code) :
    ∀ r ∈ sortByStart rs, r.country = r.code := by
  intro r hr
  exact h r ((List.mem_insertionSort _).mp hr)

theorem rangeLookupPure_mirror (ranges : List IPRange) (ip : Nat)
    (hm : ∀ r ∈ ranges, r.country = r.code) (c k : List Char)
    (h : rangeLookupPure ranges ip = some (c, k)) : c = k := by
  unfold rangeLookupPure at h
  by_cases hpos : 0 < rangeSearchIdx ranges ip
  · rw [if_pos hpos] at h
    by_cases hcont :
        (ranges.getD (rangeSearchIdx ranges ip - 1) default).containsIP ip = true
    · rw [if_pos hcont] at h
      obtain ⟨h1, h2⟩ :
          (ranges.getD (rangeSearchIdx ranges ip - 1) default).country = c ∧
          (ranges.getD (rangeSearchIdx ranges ip - 1) default).code = k := by
        simpa using h
      have hlt : rangeSearchIdx ranges ip - 1 < ranges.length := by
        have := rangeSearchIdx_le ranges ip; omega
      have hel : ranges.getD (rangeSearchIdx ranges ip - 1) default ∈ ranges := by
        rw [List.getD_eq_getElem ranges default hlt]
        exact List.getElem_mem hlt
      have h3 := hm _ hel
      rw [h1, h2] at h3
      exact h3
    · rw [if_neg hcont] at h; exact Option.noConfusion h
  · rw [if_neg hpos] at h; exact Option.noConfusion h

theorem mirror_list_lruPut (c : LruCache) (hm : ∀ p ∈ c.evictList, p.2.country = p.2.code)
    (k : Nat) (v : CacheEntry) (hv : v.country = v.code) :
    ∀ p ∈ (lruPut c k v).evictList, p.2.country = p.2.code := by
  intro p hp
  by_cases hc : c.items.contains k = true
  · rw [lruPut_existing c k v hc] at hp
    rcases List.mem_cons.mp hp with rfl | hp2
    · exact hv
    · exact hm p (List.eraseP_subset _ hp2)
  · have hc2 : c.items.contains k = false := by simpa using hc
    by_cases hl : c.evictList.length ≥ c.capacity
    · rw [lruPut_new_evict c k v hc2 hl] at hp
      rcases List.mem_cons.mp hp with rfl | hp2
      · exact hv
      · have hsub : p ∈ c.evictList := by
          revert hp2
          unfold removeOldest
          cases c.evictList.getLast? with
          | none => intro hp2; exact hp2
          | some q => intro hp2; exact (List.dropLast_sublist _).subset hp2
        exact hm p hsub
    · rw [lruPut_new_room c k v hc2 hl] at hp
      rcases List.mem_cons.mp hp with rfl | hp2
      · exact hv
      · exact hm p hp2

theorem cacheHitResult_found (st : RangeState) (c1 : LruCache) (e : CacheEntry)
    (c k : List Char) (hck : (cacheHitResult st c1 e).2 = .found c k) :
    c = e.country ∧ k = e.code := by
  have hck2 : (if e.found = true then LookupRes.found e.country e.code
      else LookupRes.missCached) = .found c k := hck
  by_cases hf : e.found = true
  · rw [if_pos hf] at hck2
    obtain ⟨h1, h2⟩ := LookupRes.found.inj hck2
    exact ⟨h1.symm, h2.symm⟩
  · rw [if_neg hf] at hck2
    exact LookupRes.noConfusion hck2

theorem findCountryForIP_found_mirror (st : RangeState) (ip : Nat)
    (hmr : mirrorRanges st.ranges) (hmc : mirrorCache st.cache) :
    (∀ c k, (findCountryForIP st ip).2 = .found c k → c = k) ∧
    mirrorCache (findCountryForIP st ip).1.cache := by
  by_cases hc : st.cache.items.contains ip = true
  · rw [findCountryForIP_eq_hit st ip hc]
    have he : (((st.cache.evictList.find? (fun p => p.1 == ip)).map Prod.snd).getD default).country =
        (((st.cache.evictList.find? (fun p => p.1 == ip)).map Prod.snd).getD default).code := by
      cases hfind : st.cache.evictList.find? (fun p => p.1 == ip) with
      | some p => exact hmc p (List.mem_of_find?_eq_some hfind)
      | none => rfl
    constructor
    · intro c k hck
      obtain ⟨h1, h2⟩ := cacheHitResult_found _ _ _ c k hck
      rw [h1, h2, he]
    · intro p hp
      exact hmc p ((moveToFront_perm ip st.cache.evictList).mem_iff.mp hp)
  · have hc2 : st.cache.items.contains ip = false := by simpa using hc
    rw [findCountryForIP_eq_miss st ip hc2]
    cases hp : rangeLookupPure st.ranges ip with
    | some pr =>
      obtain ⟨cty, code⟩ := pr
      rw [cacheMissSearch_eq_some st _ ip cty code hp]
      have hck : cty = code := rangeLookupPure_mirror st.ranges ip hmr cty code hp
      constructor
      · intro c k hfk
        obtain ⟨h1, h2⟩ := LookupRes.found.inj hfk.symm
        rw [h1, h2]; exact hck
      · exact mirror_list_lruPut
          ⟨st.cache.capacity, st.cache.items, st.cache.evictList,
           st.cache.hits, st.cache.misses + 1⟩ hmc ip ⟨cty, code, ip, true⟩ hck
    | none =>
      rw [cacheMissSearch_eq_none st _ ip hp]
      constructor
      · intro c k hfk
        exact LookupRes.noConfusion hfk
      · exact mirror_list_lruPut
          ⟨st.cache.capacity, st.cache.items, st.cache.evictList,
           st.cache.hits, st.cache.misses + 1⟩ hmc ip ⟨[], [], ip, false⟩ rfl

theorem initRangeWC_mirror (env : LoadEnv) (st st1 : RangeState)
    (h : initRangeWC env st = (st1, none)) (hmr : mirrorRanges st.ranges) :
    mirrorRanges st1.ranges := by
  by_cases hd : st.initDone = true
  · have heq : initRangeWC env st = (st, st.initErr) := by
      unfold initRangeWC; rw [if_pos hd]
    rw [heq] at h
    have h1 : st = st1 := congrArg Prod.fst h
    rw [← h1]; exact hmr
  · have heq0 : initRangeWC env st = commitRanges st (parseFileRange st.config env) := by
      unfold initRangeWC; rw [if_neg hd]
    cases hp : parseFileRange st.config env with
    | error e2 =>
      have heq : initRangeWC env st = ({ st with initErr := some e2 }, some e2) := by
        rw [heq0, hp]; rfl
      rw [heq] at h
      exact Option.noConfusion (congrArg Prod.snd h)
    | ok pr =>
      obtain ⟨rs, errs⟩ := pr
      have heq1 : initRangeWC env st = commitSorted st (sortByStart rs) := by
        rw [heq0, hp]; rfl
      cases hv : validateRangesGo (sortByStart rs) with
      | some e2 =>
        have heq : initRangeWC env st = ({ st with initErr := some e2 }, some e2) := by
          rw [heq1]; unfold commitSorted; rw [hv]
        rw [heq] at h
        exact Option.noConfusion (congrArg Prod.snd h)
      | none =>
        have heq : initRangeWC env st =
            ({ st with ranges := sortByStart rs, initDone := true }, none) := by
          rw [heq1]; unfold commitSorted; rw [hv]
        rw [heq] at h
        have h1 : ({ st with ranges := sortByStart rs, initDone := true } : RangeState)
            = st1 := congrArg Prod.fst h
        rw [← h1]
        exact sortByStart_mirror rs (parseFileRange_mirror st.config env rs errs hp)

theorem afterInit_country_code_eq (st1 : RangeState) (s : List Char)
    (hmr : mirrorRanges st1.ranges) (hmc : mirrorCache st1.cache) :
    getCountryAfterInit st1 s = getCountryCodeAfterInit st1 s := by
  cases hip : parseIPChars s with
  | none =>
    have e1 : getCountryAfterInit st1 s = (st1, .error .invalidIP) := by
      unfold getCountryAfterInit; rw [hip]
    have e2 : getCountryCodeAfterInit st1 s = (st1, .error .invalidIP) := by
      unfold getCountryCodeAfterInit; rw [hip]
    rw [e1, e2]
  | some ip =>
    have e1 : getCountryAfterInit st1 s = lookupToCountry (findCountryForIP st1 ip) := by
      unfold getCountryAfterInit; rw [hip]
    have e2 : getCountryCodeAfterInit st1 s = lookupToCode (findCountryForIP st1 ip) := by
      unfold getCountryCodeAfterInit; rw [hip]
    rw [e1, e2]
    have hout := (findCountryForIP_found_mirror st1 ip hmr hmc).1
    generalize hF : findCountryForIP st1 ip = F at hout ⊢
    obtain ⟨st2, r⟩ := F
    cases r with
    | found c k =>
      have hck := hout c k rfl
      rw [hck]
      rfl
    | missFresh => rfl
    | missCached => rfl

theorem findCountryForIPExact_eq_hit (st : ExactState) (ip : Nat)
    (hc : st.cache.items.contains ip = true) :
    findCountryForIPExact st ip =
      exactHitResult st
        ⟨st.cache.capacity, st.cache.items, moveToFront ip st.cache.evictList,
         st.cache.hits + 1, st.cache.misses⟩
        (((st.cache.evictList.find? (fun p => p.1 == ip)).map Prod.snd).getD default) := by
  unfold findCountryForIPExact
  rw [lruGet_hit st.cache ip hc]

theorem findCountryForIPExact_eq_miss (st : ExactState) (ip : Nat)
    (hc : st.cache.items.contains ip = false) :
    findCountryForIPExact st ip =
      exactMissSearch st
        ⟨st.cache.capacity, st.cache.items, st.cache.evictList,
         st.cache.hits, st.cache.misses + 1⟩ ip := by
  unfold findCountryForIPExact
  rw [lruGet_miss st.cache ip hc]

theorem exactMissSearch_eq_some (st : ExactState) (c1 : LruCache) (ip : Nat)
    (p : Nat × List Char) (hp : st.ipMap.find? (fun q => q.1 == ip) = some p) :
    exactMissSearch st c1 ip =
      ({ st with cache := lruPut c1 ip ⟨p.2, p.2, ip, true⟩ }, .found p.2 p.2) := by
  unfold exactMissSearch
  rw [hp]

theorem exactMissSearch_eq_none (st : ExactState) (c1 : LruCache) (ip : Nat)
    (hp : st.ipMap.find? (fun q => q.1 == ip) = none) :
    exactMissSearch st c1 ip =
      ({ st with cache := lruPut c1 ip ⟨[], [], ip, false⟩ }, .missFresh) := by
  unfold exactMissSearch
  rw [hp]

theorem exactHitResult_found (st : ExactState) (c1 : LruCache) (e : CacheEntry)
    (c k : List Char) (hck : (exactHitResult st c1 e).2 = .found c k) :
    c = e.country ∧ k = e.code := by
  have hck2 : (if e.found = true then LookupRes.found e.country e.code
      else LookupRes.missCached) = .found c k := hck
  by_cases hf : e.found = true
  · rw [if_pos hf] at hck2
    obtain ⟨h1, h2⟩ := LookupRes.found.inj hck2
    exact ⟨h1.symm, h2.symm⟩
  · rw [if_neg hf] at hck2
    exact LookupRes.noConfusion hck2

theorem findCountryForIPExact_found_mirror (st : ExactState) (ip : Nat)
    (hmc : mirrorCache st.cache) :
    (∀ c k, (findCountryForIPExact st ip).2 = .found c k → c = k) ∧
    mirrorCache (findCountryForIPExact st ip).1.cache := by
  by_cases hc : st.cache.items.contains ip = true
  · rw [findCountryForIPExact_eq_hit st ip hc]
    have he : (((st.cache.evictList.find? (fun p => p.1 == ip)).map Prod.snd).getD default).country =
        (((st.cache.evictList.find? (fun p => p.1 == ip)).map Prod.snd).getD default).code := by
      cases hfind : st.cache.evictList.find? (fun p => p.1 == ip) with
      | some p => exact hmc p (List.mem_of_find?_eq_some hfind)
      | none => rfl
    constructor
    · intro c k hck
      obtain ⟨h1, h2⟩ := exactHitResult_found _ _ _ c k hck
      rw [h1, h2, he]
    · intro p hp
      exact hmc p ((moveToFront_perm ip st.cache.evictList).mem_iff.mp hp)
  · have hc2 : st.cache.items.contains ip = false := by simpa using hc
    rw [findCountryForIPExact_eq_miss st ip hc2]
    cases hp : st.ipMap.find? (fun q => q.1 == ip) with
    | some p =>
      rw [exactMissSearch_eq_some st _ ip p hp]
      constructor
      · intro c k hfk
        obtain ⟨h1, h2⟩ := LookupRes.found.inj hfk.symm
        rw [h1, h2]
      · exact mirror_list_lruPut
          ⟨st.cache.capacity, st.cache.items, st.cache.evictList,
           st.cache.hits, st.cache.misses + 1⟩ hmc ip ⟨p.2, p.2, ip, true⟩ rfl
    | none =>
      rw [exactMissSearch_eq_none st _ ip hp]
      constructor
      · intro c k hfk
        exact LookupRes.noConfusion hfk
      · exact mirror_list_lruPut
          ⟨st.cache.capacity, st.cache.items, st.cache.evictList,
           st.cache.hits, st.cache.misses + 1⟩ hmc ip ⟨[], [], ip, false⟩ rfl

theorem afterInitExact_country_code_eq (st1 : ExactState) (s : List Char)
    (hmc : mirrorCache st1.cache) :
    getCountryExactAfterInit st1 s = getCountryCodeExactAfterInit st1 s := by
  cases hip : parseIPChars s with
  | none =>
    have e1 : getCountryExactAfterInit st1 s = (st1, .error .invalidIP) := by
      unfold getCountryExactAfterInit; rw [hip]
    have e2 : getCountryCodeExactAfterInit st1 s = (st1, .error .invalidIP) := by
      unfold getCountryCodeExactAfterInit; rw [hip]
    rw [e1, e2]
  | some ip =>
    have e1 : getCountryExactAfterInit st1 s =
        exactToCountry (findCountryForIPExact st1 ip) := by
      unfold getCountryExactAfterInit; rw [hip]
    have e2 : getCountryCodeExactAfterInit st1 s =
        exactToCode (findCountryForIPExact st1 ip) := by
      unfold getCountryCodeExactAfterInit; rw [hip]
    rw [e1, e2]
    have hout := (findCountryForIPExact_found_mirror st1 ip hmc).1
    generalize hF : findCountryForIPExact st1 ip = F at hout ⊢
    obtain ⟨st2, r⟩ := F
    cases r with
    | found c k =>
      have hck := hout c k rfl
      rw [hck]
      rfl
    | missFresh => rfl
    | missCached => rfl

/-- C9: for both engines GetCountry and GetCountryCode agree. The range
engine's `parseLine` stores the same source field in `Country` and `Code`;
whenever the committed dataset and the cache satisfy this mirror property
(every state the code produces does, by the lemmas above), the two getters
return identical (state, result) pairs; the exact engine serves both fields
from the single map value, so its getters agree under the cache mirror
alone. -/
theorem c9_country_mirrors_code :
    (∀ cfg line r, parseLineRange cfg line = .ok r → r.country = r.code) ∧
    (∀ env st s, mirrorRanges st.ranges → mirrorCache st.cache →
      getCountryWC env st s = getCountryCodeWC env st s) ∧
    (∀ env st s, mirrorCache st.cache →
      getCountryExactWC env st s = getCountryCodeExactWC env st s) := by
  refine ⟨parseLineRange_mirror, ?_, ?_⟩
  · intro env st s hmr hmc
    cases hI : initRangeWC env st with
    | mk st1 oe =>
      cases oe with
      | some e =>
        have e1 : getCountryWC env st s = (st1, .error (.initFailed e)) := by
          unfold getCountryWC; rw [hI]
        have e2 : getCountryCodeWC env st s = (st1, .error (.initFailed e)) := by
          unfold getCountryCodeWC; rw [hI]
        rw [e1, e2]
      | none =>
        have e1 : getCountryWC env st s = getCountryAfterInit st1 s := by
          unfold getCountryWC; rw [hI]
        have e2 : getCountryCodeWC env st s = getCountryCodeAfterInit st1 s := by
          unfold getCountryCodeWC; rw [hI]
        rw [e1, e2]
        have hmr1 : mirrorRanges st1.ranges := initRangeWC_mirror env st st1 hI hmr
        have hcf : st1.cache = st.cache := by
          have h0 := (initRangeWC_cache_frame env st).1
          rw [hI] at h0
          exact h0
        have hmc1 : mirrorCache st1.cache := by rw [hcf]; exact hmc
        exact afterInit_country_code_eq st1 s hmr1 hmc1
  · intro env st s hmc
    cases hI : initExactWC env st with
    | mk st1 oe =>
      cases oe with
      | some e =>
        have e1 : getCountryExactWC env st s = (st1, .error (.initFailed e)) := by
          unfold getCountryExactWC; rw [hI]
        have e2 : getCountryCodeExactWC env st s = (st1, .error (.initFailed e)) := by
          unfold getCountryCodeExactWC; rw [hI]
        rw [e1, e2]
      | none =>
        have e1 : getCountryExactWC env st s = getCountryExactAfterInit st1 s := by
          unfold getCountryExactWC; rw [hI]
        have e2 : getCountryCodeExactWC env st s =
            getCountryCodeExactAfterInit st1 s := by
          unfold getCountryCodeExactWC; rw [hI]
        rw [e1, e2]
        have hcf : st1.cache = st.cache := by
          have h0 := (initExactWC_cache_frame env st).1
          rw [hI] at h0
          exact h0
        have hmc1 : mirrorCache st1.cache := by rw [hcf]; exact hmc
        exact afterInitExact_country_code_eq st1 s hmc1

/-- Witness for C9: the getter pair agrees on the loaded §8 range state at
`1.0.1.15` and on a fresh exact-map state at `1.2.3.4`. -/
theorem c9_witness :
    getCountryWC envGood stLoaded ("1.0.1.15".toList) =
      getCountryCodeWC envGood stLoaded ("1.0.1.15".toList) ∧
    getCountryExactWC envCancel2 ex0 ("1.2.3.4".toList) =
      getCountryCodeExactWC envCancel2 ex0 ("1.2.3.4".toList) :=
  ⟨c9_country_mirrors_code.2.1 envGood stLoaded ("1.0.1.15".toList)
      (by decide) (by decide),
   c9_country_mirrors_code.2.2 envCancel2 ex0 ("1.2.3.4".toList) (by decide)⟩
